import Mathlib

/-!
Verification of the automata core of `automate-ui/lib/automata/regex.ts`:
regex → postfix (shunting yard), postfix → NFA (Thompson construction),
NFA → DFA (subset construction), and the DOT graph exporters.

Strings are modelled as `List Char` (a TS string is a sequence of one-char
tokens here: every loop in the source iterates `for (const c of str)`).
TS `Set` objects are modelled as duplicate-free lists in insertion order,
and the one piece of mutable state — the global `nextStateId` counter — is
threaded explicitly as a `Nat`.  A function that can throw (`postfixToNFA`)
returns an `Option`.
-/

namespace AutomataML

/-- A labeled edge (`{ from, to, symbol }` in the source); `symbol = none`
is the epsilon marker (`null` in the source). -/
structure Transition where
  from_ : Nat
  to_ : Nat
  symbol : Option Char
  deriving DecidableEq, Repr

/-- `NFA` record of the source: one start id, one accept id, a states list
and a transitions list. -/
structure NFA where
  start : Nat
  accept : Nat
  states : List Nat
  transitions : List Transition
  deriving DecidableEq, Repr

/-- A DFA transition: `symbol` is a real character, never the epsilon
marker (`{ from: number; to: number; symbol: string }` in the source). -/
structure DTransition where
  from_ : Nat
  to_ : Nat
  symbol : Char
  deriving DecidableEq, Repr

/-- `DFA` record of the source. -/
structure DFA where
  start : Nat
  acceptStates : List Nat
  states : List Nat
  transitions : List DTransition
  deriving DecidableEq, Repr

/-- `resetIds` of the source: the build counter becomes 0 whatever it was. -/
def resetIds (_c : Nat) : Nat := 0

/-- `isOperator` of the source. -/
def isOperator (c : Char) : Bool := c = '|' || c = '*' || c = '.'

/-- `precedence` of the source. -/
def precedence (op : Char) : Nat :=
  if op = '*' then 3 else if op = '.' then 2 else if op = '|' then 1 else 0

/-- `insertConcats` of the source: emit each character, and after emitting
`c` insert the explicit concatenation marker before the next character `d`
unless `c` is `(` or `|`, or `d` is `*`, `|` or `)`. -/
def insertConcats : List Char → List Char
  | [] => []
  | c :: rest =>
    match rest with
    | [] => [c]
    | d :: _ =>
      if c = '(' ∨ c = '|' then c :: insertConcats rest
      else if d = '*' ∨ d = '|' ∨ d = ')' then c :: insertConcats rest
      else c :: '.' :: insertConcats rest

/-- One step of the shunting-yard loop of `regexToPostfix`: `acc` is the
pair (output so far, operator stack with its top at the head). -/
def rtpStep (acc : List Char × List Char) (c : Char) : List Char × List Char :=
  let out := acc.1
  let ops := acc.2
  if c = '(' then (out, c :: ops)
  else if c = ')' then
    (out ++ ops.takeWhile (fun o => o ≠ '('),
     (ops.dropWhile (fun o => o ≠ '(')).drop 1)
  else if isOperator c then
    (out ++ ops.takeWhile (fun o => isOperator o && decide (precedence c ≤ precedence o)),
     c :: ops.dropWhile (fun o => isOperator o && decide (precedence c ≤ precedence o)))
  else (out ++ [c], ops)

/-- `regexToPostfix` of the source: insert explicit concatenation, run the
shunting-yard loop, then flush the remaining operator stack in pop order. -/
def regexToPostfix (re : List Char) : List Char :=
  let folded := (insertConcats re).foldl rtpStep ([], [])
  folded.1 ++ folded.2

/-- One step of the Thompson-construction loop of `postfixToNFA`; `acc` is
(state-id counter, fragment stack with its top at the head).  `none` models
the fatal error a pop of an empty stack raises in the source. -/
def pftStep (acc : Nat × List NFA) (c : Char) : Option (Nat × List NFA) :=
  let cnt := acc.1
  let stack := acc.2
  if c = '*' then
    match stack with
    | [] => none
    | n :: rest =>
      some (cnt + 2,
        { start := cnt, accept := cnt + 1,
          states := cnt :: (cnt + 1) :: n.states,
          transitions :=
            ⟨cnt, n.start, none⟩ :: ⟨cnt, cnt + 1, (none : Option Char)⟩ ::
            ⟨n.accept, n.start, none⟩ :: ⟨n.accept, cnt + 1, none⟩ ::
            n.transitions } :: rest)
  else if c = '.' then
    match stack with
    | n2 :: n1 :: rest =>
      some (cnt,
        { start := n1.start, accept := n2.accept,
          states := n1.states ++ n2.states,
          transitions :=
            n1.transitions ++ n2.transitions ++ [⟨n1.accept, n2.start, none⟩] } :: rest)
    | _ => none
  else if c = '|' then
    match stack with
    | n2 :: n1 :: rest =>
      some (cnt + 2,
        { start := cnt, accept := cnt + 1,
          states := cnt :: (cnt + 1) :: (n1.states ++ n2.states),
          transitions :=
            ⟨cnt, n1.start, none⟩ :: ⟨cnt, n2.start, none⟩ ::
            ⟨n1.accept, cnt + 1, none⟩ :: ⟨n2.accept, cnt + 1, none⟩ ::
            (n1.transitions ++ n2.transitions) } :: rest)
    | _ => none
  else
    some (cnt + 2,
      { start := cnt, accept := cnt + 1,
        states := [cnt, cnt + 1],
        transitions := [⟨cnt, cnt + 1, some c⟩] } :: stack)

/-- The token loop of `postfixToNFA`, with the counter and fragment stack
explicit. -/
def runPostfix (cnt : Nat) (stack : List NFA) : List Char → Option (Nat × List NFA)
  | [] => some (cnt, stack)
  | c :: cs =>
    match pftStep (cnt, stack) c with
    | some acc => runPostfix acc.1 acc.2 cs
    | none => none

/-- Deduplication keeping first occurrences — `Array.from(new Set(l))`. -/
def dedupFirst (l : List Nat) (seen : List Nat := []) : List Nat :=
  match l with
  | [] => []
  | x :: xs => if x ∈ seen then dedupFirst xs seen else x :: dedupFirst xs (x :: seen)

/-- `postfixToNFA` of the source: run the Thompson loop from counter `cnt`;
the result is the sole remaining fragment with its states deduplicated,
paired with the final counter.  `none` models the thrown error (either a
pop of an empty stack mid-loop, or the final `stack.length !== 1` check). -/
def postfixToNFA (pf : List Char) (cnt : Nat) : Option (NFA × Nat) :=
  match runPostfix cnt [] pf with
  | some (cnt2, [n]) => some ({ n with states := dedupFirst n.states }, cnt2)
  | _ => none

/-- One independent compilation as the UI performs it: `resetIds()` then
`postfixToNFA(regexToPostfix(pattern))`, starting from any prior counter. -/
def compileOnce (re : List Char) (c : Nat) : Option (NFA × Nat) :=
  postfixToNFA (regexToPostfix re) (resetIds c)

/-- The alphabet collection loop of `nfaToDfa`: the distinct non-epsilon
symbols, in first-appearance order (a TS `Set` keeps insertion order). -/
def alphabet (N : NFA) : List Char :=
  N.transitions.foldl (fun acc t =>
    match t.symbol with
    | some c => if c ∈ acc then acc else acc ++ [c]
    | none => acc) []

/-- `move` of the source: the set of states reachable from a member of `S`
by one transition labeled exactly `c` (built in iteration order, so the
result is duplicate-free). -/
def move (N : NFA) (S : List Nat) (c : Char) : List Nat :=
  S.foldl (fun res s =>
    N.transitions.foldl (fun res t =>
      if t.from_ = s ∧ t.symbol = some c ∧ t.to_ ∉ res then res ++ [t.to_] else res) res) []

/-- The body of one worklist iteration of `epsilonClosure`: the popped
state is `s`, and the fold over the transition list pushes every
not-yet-seen epsilon successor of `s` onto the stack (`acc.1`, top at the
head) and appends it to the result set (`acc.2`). -/
def closureScan (N : NFA) (s : Nat) (acc : List Nat × List Nat) : List Nat × List Nat :=
  N.transitions.foldl (fun acc t =>
    if t.from_ = s ∧ t.symbol = none ∧ t.to_ ∉ acc.2 then (t.to_ :: acc.1, acc.2 ++ [t.to_])
    else acc) acc

/-- The worklist loop of `epsilonClosure`.  The source's `while (stack.length)`
always terminates because the result set only grows and is bounded; here the
same argument supplies the explicit bound `fuel`, and `epsilonClosure` passes
a fuel value large enough that it is never exhausted (`closureFuel_sufficient`). -/
def closureLoop (N : NFA) : Nat → List Nat → List Nat → List Nat
  | 0, _, res => res
  | _ + 1, [], res => res
  | fuel + 1, s :: stack, res =>
    let acc := closureScan N s (stack, res)
    closureLoop N fuel acc.1 acc.2

/-- An upper bound on the number of iterations `epsilonClosure`'s worklist
can perform starting from set `S`. -/
def closureFuel (N : NFA) (S : List Nat) : Nat := 2 * N.transitions.length + S.length + 1

/-- `epsilonClosure` of the source: `res = new Set(stateSet)`,
`stack = Array.from(stateSet)` (the array pop takes the last element, so the
list-with-head-top stack starts reversed), then the worklist loop. -/
def epsilonClosure (N : NFA) (S : List Nat) : List Nat :=
  closureLoop N (closureFuel N (dedupFirst S)) (dedupFirst S).reverse (dedupFirst S)

/-- `keyOf` of the source sorts a duplicate-free set of ids ascending and
joins it with commas; joining is injective on sorted id lists, so the key is
modelled as the sorted list itself. -/
def keyOf (l : List Nat) : List Nat := l.insertionSort (· ≤ ·)

/-- First-match lookup of a canonical key in the key list — `dfaStatesMap.get`
(the map's keys are unique, and ids are assigned in insertion order, so the
id of a key is its position). -/
def idxOf (k : List Nat) : List (List Nat) → Nat
  | [] => 0
  | a :: rest => if a = k then 0 else idxOf k rest + 1

/-- The per-symbol body of `nfaToDfa`'s worklist: `acc` is the pair
(discovered subsets in insertion order — entry `i` is the subset with DFA id
`i`, exactly the `dfaStatesMap`/`dfaStatesList` pair of the source — and the
DFA transitions so far).  `cur` is the subset being processed and `fromId`
its id.  An empty `move` records nothing; otherwise the closure's key is
looked up (inserting it if new) and one transition is recorded. -/
def symStep (N : NFA) (cur : List Nat) (fromId : Nat)
    (acc : List (List Nat) × List DTransition) (sym : Char) :
    List (List Nat) × List DTransition :=
  let moved := move N cur sym
  if moved = [] then acc
  else
    let cl := epsilonClosure N moved
    let k := keyOf cl
    let seen2 := if k ∈ acc.1.map keyOf then acc.1 else acc.1 ++ [cl]
    let toId := idxOf k (seen2.map keyOf)
    (seen2, acc.2 ++ [⟨fromId, toId, sym⟩])

/-- The breadth-first worklist of `nfaToDfa`: process the subset at `idx`,
then move to `idx + 1`; the loop ends when `idx` reaches the end of the
growing subset list.  As with `closureLoop`, `fuel` makes the terminating
loop structural; `nfaToDfa` passes a provably sufficient amount. -/
def dfaLoop (N : NFA) (alpha : List Char) :
    Nat → Nat → List (List Nat) × List DTransition → List (List Nat) × List DTransition
  | 0, _, acc => acc
  | fuel + 1, idx, acc =>
    if h : idx < acc.1.length then
      let cur := acc.1[idx]
      let fromId := idxOf (keyOf cur) (acc.1.map keyOf)
      dfaLoop N alpha fuel (idx + 1) (alpha.foldl (symStep N cur fromId) acc)
    else acc

/-- Every subset the worklist can discover is a subset of the start id plus
the transition targets; this sorted deduplicated list carries them all. -/
def dfaUniverse (N : NFA) : List Nat :=
  keyOf (dedupFirst (N.start :: N.transitions.map Transition.to_))

/-- An upper bound on the number of iterations of `nfaToDfa`'s worklist. -/
def dfaFuel (N : NFA) : Nat := 2 * 2 ^ (dfaUniverse N).length + 2

/-- `nfaToDfa` of the source: subset construction.  DFA id 0 is
`epsilonClosure({start})`; the accept ids are those whose key contains the
NFA accept id, in insertion order. -/
def nfaToDfa (N : NFA) : DFA :=
  let alpha := alphabet N
  let startClosure := epsilonClosure N [N.start]
  let r := dfaLoop N alpha (dfaFuel N) 0 ([startClosure], [])
  { start := 0,
    acceptStates := (List.range r.1.length).filter (fun i => N.accept ∈ keyOf (r.1.getD i [])),
    states := List.range r.1.length,
    transitions := r.2 }

/-- The ids any subset arising during the subset construction can contain:
the NFA's start id and the targets of its transitions. -/
def uSet (N : NFA) : List Nat := N.start :: N.transitions.map Transition.to_

/-- How many possible epsilon-closure members are still missing from a
result set: the termination measure of `epsilonClosure`'s worklist. -/
def closureMissing (N : NFA) (res : List Nat) : Nat :=
  ((dedupFirst (N.transitions.map Transition.to_)).filter (fun x => ¬ x ∈ res)).length

/-- One epsilon transition of the NFA, as a relation on state ids. -/
def epsEdge (N : NFA) (a b : Nat) : Prop :=
  ∃ t ∈ N.transitions, t.from_ = a ∧ t.symbol = none ∧ t.to_ = b

/-- Reachability along epsilon transitions. -/
def epsReach (N : NFA) : Nat → Nat → Prop := Relation.ReflTransGen (epsEdge N)

/-- How many candidate canonical keys the subset construction has not yet
discovered: the termination measure of `nfaToDfa`'s worklist. -/
def dfaMissing (N : NFA) (seen : List (List Nat)) : Nat :=
  ((dfaUniverse N).sublists.filter (fun k => ¬ k ∈ seen.map keyOf)).length

/-- The discovered-subset list is well-formed: every stored subset is
duplicate-free with ids from `uSet`, and the canonical keys are pairwise
distinct (each subset has exactly one DFA id). -/
def seenOK (N : NFA) (seen : List (List Nat)) : Prop :=
  (∀ S ∈ seen, S.Nodup ∧ ∀ x ∈ S, x ∈ uSet N) ∧ (seen.map keyOf).Nodup

/-- The worklist invariant of `nfaToDfa` at position `idx`: the discovered
subsets are well-formed, transitions leave only processed ids and stay in
range with genuine alphabet symbols, at most one transition exists per
(from, symbol) pair, and every processed id has exactly the transitions the
subset construction prescribes (none on an empty `move`, otherwise one
whose target subset is the closure of the move, up to canonical key). -/
def dfaInv (N : NFA) (idx : Nat) (seen : List (List Nat)) (trans : List DTransition) : Prop :=
  seenOK N seen ∧ idx ≤ seen.length ∧
  (∀ dt ∈ trans, dt.from_ < idx ∧ dt.to_ < seen.length ∧ dt.symbol ∈ alphabet N) ∧
  (trans.map (fun dt => (dt.from_, dt.symbol))).Nodup ∧
  (∀ i, i < idx → ∀ c : Char,
    (move N (seen.getD i []) c = [] → ∀ dt ∈ trans, ¬(dt.from_ = i ∧ dt.symbol = c)) ∧
    (move N (seen.getD i []) c ≠ [] → ∃ dt ∈ trans, dt.from_ = i ∧ dt.symbol = c ∧
      keyOf (seen.getD dt.to_ []) = keyOf (epsilonClosure N (move N (seen.getD i []) c))))

/-- One line of the DOT text, abstracted to its content: each constructor
stands for one string the source pushes onto `lines` (state ids and edge
labels are the only varying parts; `edge` with label `none` is the line
rendered with the epsilon glyph). -/
inductive DotLine where
  | header (isNfa : Bool)
  | rankdir
  | nodeShape
  | startPoint
  | startArrow (to_ : Nat)
  | doubleCircle (s : Nat)
  | edge (from_ to_ : Nat) (label : Option Char)
  | closeBrace
  deriving DecidableEq, Repr

/-- `nfaToDot` of the source, line by line. -/
def nfaToDot (N : NFA) : List DotLine :=
  [DotLine.header true, DotLine.rankdir, DotLine.nodeShape, DotLine.startPoint,
   DotLine.startArrow N.start]
  ++ (N.states.filter (fun s => s = N.accept)).map DotLine.doubleCircle
  ++ N.transitions.map (fun t => DotLine.edge t.from_ t.to_ t.symbol)
  ++ [DotLine.closeBrace]

/-- `dfaToDot` of the source, line by line. -/
def dfaToDot (D : DFA) : List DotLine :=
  [DotLine.header false, DotLine.rankdir, DotLine.nodeShape, DotLine.startPoint,
   DotLine.startArrow D.start]
  ++ (D.states.filter (fun s => s ∈ D.acceptStates)).map DotLine.doubleCircle
  ++ D.transitions.map (fun t => DotLine.edge t.from_ t.to_ (some t.symbol))
  ++ [DotLine.closeBrace]

/-- How many times state id `x` is mentioned by one DOT line (the lines that
mention ids at all are the start arrow, the doublecircle annotations and the
edges). -/
def lineOccs (x : Nat) : DotLine → Nat
  | DotLine.startArrow t => if t = x then 1 else 0
  | DotLine.doubleCircle s => if s = x then 1 else 0
  | DotLine.edge f t _ => (if f = x then 1 else 0) + (if t = x then 1 else 0)
  | _ => 0

/-- Total number of mentions of state id `x` in a DOT text. -/
def dotOccs (x : Nat) (ls : List DotLine) : Nat := (ls.map (lineOccs x)).sum

/-- How many accepting markers (doublecircle annotations) for state `x` a
DOT text carries. -/
def dotMarkerCount (x : Nat) (ls : List DotLine) : Nat :=
  (ls.filter (fun l => l = DotLine.doubleCircle x)).length

/-- Modelled from the spec (the claim's own words): direct NFA simulation —
start from `epsilonClosure({start})` and apply `move` then `epsilonClosure`
per character. -/
def nfaSimSet (N : NFA) (s : List Char) : List Nat :=
  s.foldl (fun S c => epsilonClosure N (move N S c)) (epsilonClosure N [N.start])

/-- Modelled from the spec: direct NFA simulation accepts when the final
set intersects `{accept}`. -/
def nfaSimAccepts (N : NFA) (s : List Char) : Bool := N.accept ∈ nfaSimSet N s

/-- Standard DFA small step (spec §4.4: absence of a transition means
rejection): the unique transition out of `q` labeled `c`, if any. -/
def dfaStep (D : DFA) (q : Nat) (c : Char) : Option Nat :=
  (D.transitions.find? (fun t => t.from_ == q && t.symbol == c)).map (fun t => t.to_)

/-- Run the DFA transition table from state `q`. -/
def dfaRun (D : DFA) (q : Nat) : List Char → Option Nat
  | [] => some q
  | c :: cs =>
    match dfaStep D q c with
    | some q2 => dfaRun D q2 cs
    | none => none

/-- DFA acceptance: end in an accepting state; a missing transition is an
implicit rejection. -/
def dfaAccepts (D : DFA) (s : List Char) : Bool :=
  match dfaRun D D.start s with
  | some q => q ∈ D.acceptStates
  | none => false

/-- The NFA the pipeline produces for the pattern `(a|b)*abb` from a fresh
counter (established by `abbNFA_eq` below). -/
def abbNFA : NFA :=
  { start := 6, accept := 13,
    states := [6, 7, 4, 5, 0, 1, 2, 3, 8, 9, 10, 11, 12, 13],
    transitions :=
      [⟨6, 4, none⟩, ⟨6, 7, none⟩, ⟨5, 4, none⟩, ⟨5, 7, none⟩,
       ⟨4, 0, none⟩, ⟨4, 2, none⟩, ⟨1, 5, none⟩, ⟨3, 5, none⟩,
       ⟨0, 1, some 'a'⟩, ⟨2, 3, some 'b'⟩, ⟨8, 9, some 'a'⟩, ⟨7, 8, none⟩,
       ⟨10, 11, some 'b'⟩, ⟨9, 10, none⟩, ⟨12, 13, some 'b'⟩, ⟨11, 12, none⟩] }

/-- The DFA the subset construction produces from `abbNFA` (established by
`abbDFA_eq` below): state 1 after a trailing `a`, 3 after a trailing `ab`,
4 (accepting) after a trailing `abb`, 0 initially and 2 otherwise. -/
def abbDFA : DFA :=
  { start := 0, acceptStates := [4], states := [0, 1, 2, 3, 4],
    transitions :=
      [⟨0, 1, 'a'⟩, ⟨0, 2, 'b'⟩, ⟨1, 1, 'a'⟩, ⟨1, 3, 'b'⟩, ⟨2, 1, 'a'⟩,
       ⟨2, 2, 'b'⟩, ⟨3, 1, 'a'⟩, ⟨3, 4, 'b'⟩, ⟨4, 1, 'a'⟩, ⟨4, 2, 'b'⟩] }

/-- The `abbDFA` state reached after reading a string whose reverse is
`rev`: classified by the longest suffix of the input that is a prefix of
`abb`. -/
def abbClass (rev : List Char) : Nat :=
  if rev.take 3 = ['b', 'b', 'a'] then 4
  else if rev.take 2 = ['b', 'a'] then 3
  else if rev.take 1 = ['a'] then 1
  else if rev = [] then 0
  else 2

/-- Well-formedness of one Thompson fragment under counter `cnt`: its start
and accept ids and every transition endpoint lie in its states list, all its
ids are below the counter (freshness of the next allocations), no transition
leaves the accept state and none enters the start state. -/
def fragWF (cnt : Nat) (f : NFA) : Prop :=
  f.start ∈ f.states ∧ f.accept ∈ f.states ∧
  (∀ x ∈ f.states, x < cnt) ∧
  (∀ t ∈ f.transitions, t.from_ ∈ f.states ∧ t.to_ ∈ f.states ∧
    t.from_ ≠ f.accept ∧ t.to_ ≠ f.start)

/-- Well-formedness of the whole fragment stack: each fragment is
well-formed and the fragments occupy pairwise disjoint id sets. -/
def stackWF (cnt : Nat) (stack : List NFA) : Prop :=
  (∀ f ∈ stack, fragWF cnt f) ∧
  stack.Pairwise (fun f g => ∀ x ∈ f.states, x ∉ g.states)

/-- C4: `regexToPostfix` maps `a|b` to `ab|`, `ab*` to `ab*.` and
`(a|b)*abb` to `ab|*a.b.b.` (the operator-precedence examples of spec §8). -/
theorem c4_postfix_examples :
    regexToPostfix ("a|b".toList) = "ab|".toList ∧
    regexToPostfix ("ab*".toList) = "ab*.".toList ∧
    regexToPostfix ("(a|b)*abb".toList) = "ab|*a.b.b.".toList := by
  decide

/-- C3 counterexample: processing `*` on a fragment `n` with `start 0`,
`accept 1` and fresh states `s = 2`, `f = 3` produces the epsilon edges
`2→0`, `2→3`, `1→0`, `1→3` — the back-edge runs from `n.accept` to
`n.start` (`1→0`), and the edge `n.accept→s` (`1→2`) claimed by the spec is
not among the produced transitions. -/
theorem c3_star_backedge_counterexample :
    (pftStep (2, [⟨0, 1, [0, 1], [⟨0, 1, some 'a'⟩]⟩]) '*').map
        (fun r => r.2.map NFA.transitions) =
      some [[⟨2, 0, none⟩, ⟨2, 3, none⟩, ⟨1, 0, none⟩, ⟨1, 3, none⟩, ⟨0, 1, some 'a'⟩]] ∧
    Transition.mk 1 2 none ∉
      [⟨2, 0, none⟩, ⟨2, 3, none⟩, ⟨1, 0, none⟩, ⟨1, 3, none⟩,
       (⟨0, 1, some 'a'⟩ : Transition)] := by
  decide

/-- C3 (amended): when `postfixToNFA` processes a `*` token it pops one
fragment `n`, allocates two fresh states `s = cnt` and `f = cnt + 1` (fresh:
not among `n`'s states when those are below the counter), adds exactly the
four epsilon edges `s→n.start`, `s→f`, `n.accept→n.start` and `n.accept→f`
(the back-edge `n.accept→n.start` enables repetition, `s→f` allows zero
repetitions), and pushes a fragment with start `s` and accept `f` retaining
`n`'s states and transitions. -/
theorem c3_star_step (cnt : Nat) (n : NFA) (rest : List NFA)
    (hfresh : ∀ x ∈ n.states, x < cnt) :
    pftStep (cnt, n :: rest) '*' =
      some (cnt + 2,
        { start := cnt, accept := cnt + 1,
          states := cnt :: (cnt + 1) :: n.states,
          transitions :=
            ⟨cnt, n.start, none⟩ :: ⟨cnt, cnt + 1, none⟩ ::
            ⟨n.accept, n.start, none⟩ :: ⟨n.accept, cnt + 1, none⟩ ::
            n.transitions } :: rest) ∧
    cnt ∉ n.states ∧ cnt + 1 ∉ n.states := by
  refine ⟨rfl, fun h => ?_, fun h => ?_⟩
  · exact absurd (hfresh _ h) (by omega)
  · exact absurd (hfresh _ h) (by omega)

/-- C3 witness: the amended star step at a concrete fragment. -/
theorem c3_star_step_witness :
    pftStep (2, [⟨0, 1, [0, 1], [⟨0, 1, some 'a'⟩]⟩]) '*' =
      some (4,
        { start := 2, accept := 3, states := [2, 3, 0, 1],
          transitions :=
            ⟨2, 0, none⟩ :: ⟨2, 3, none⟩ :: ⟨1, 0, none⟩ :: ⟨1, 3, none⟩ ::
            [⟨0, 1, some 'a'⟩] } :: []) ∧
    2 ∉ [0, 1] ∧ 3 ∉ [0, 1] := by
  have h := c3_star_step 2 ⟨0, 1, [0, 1], [⟨0, 1, some 'a'⟩]⟩ [] (by decide)
  exact h

/-- C6: `postfixToNFA` returns a value exactly when the Thompson loop runs
to completion and leaves the fragment stack with exactly one entry; any
other outcome (a mid-loop pop of an empty stack, or a final stack of another
length) is the fatal error, and no partial automaton is returned. -/
theorem c6_postfix_stack_discipline (pf : List Char) (cnt : Nat) :
    (postfixToNFA pf cnt).isSome = true ↔
      ∃ r, runPostfix cnt [] pf = some r ∧ r.2.length = 1 := by
  unfold postfixToNFA
  cases hr : runPostfix cnt [] pf with
  | none => simp [hr]
  | some r =>
    obtain ⟨cnt2, stack⟩ := r
    match stack with
    | [] => simp
    | [n] => simp
    | n :: m :: rest => simp

/-- C6 witness: a malformed postfix (`ab`, two literals and no operator)
leaves two fragments on the stack, and `postfixToNFA` fails on it. -/
theorem c6_postfix_stack_discipline_witness :
    ((postfixToNFA ['a', 'b'] 0).isSome = true ↔
      ∃ r, runPostfix 0 [] ['a', 'b'] = some r ∧ r.2.length = 1) :=
  c6_postfix_stack_discipline ['a', 'b'] 0

/-- C9: one compilation is `resetIds` followed by
`postfixToNFA(regexToPostfix(pattern))`; whatever counter values two
successive builds start from, the reset makes the two resulting NFAs
(and final counters) literally equal — in particular structurally
isomorphic under the identity relabeling of state ids. -/
theorem c9_reset_reproducible (re : List Char) (c1 c2 : Nat) :
    compileOnce re c1 = compileOnce re c2 := rfl

/-- C9 witness: two builds of `(a|b)*abb` from different prior counters. -/
theorem c9_reset_reproducible_witness :
    compileOnce ("(a|b)*abb".toList) 0 = compileOnce ("(a|b)*abb".toList) 137 :=
  c9_reset_reproducible ("(a|b)*abb".toList) 0 137

theorem abbNFA_eq :
    postfixToNFA (regexToPostfix ("(a|b)*abb".toList)) 0 = some (abbNFA, 14) := by
  decide

theorem abbDFA_eq : nfaToDfa abbNFA = abbDFA := by
  decide

theorem dfaRun_append (D : DFA) (q : Nat) (l1 l2 : List Char) :
    dfaRun D q (l1 ++ l2) = (dfaRun D q l1).bind (fun q2 => dfaRun D q2 l2) := by
  induction l1 generalizing q with
  | nil => rfl
  | cons c cs ih =>
    simp only [List.cons_append, dfaRun]
    cases dfaStep D q c with
    | some q2 => simpa using ih q2
    | none => rfl

/-- The one-step table of `abbDFA` agrees with the suffix classifier. -/
theorem abbDFA_step (rev : List Char) (c : Char) (hc : c = 'a' ∨ c = 'b') :
    dfaStep abbDFA (abbClass rev) c = some (abbClass (c :: rev)) := by
  rcases hc with rfl | rfl
  · have h1 : abbClass ('a' :: rev) = 1 := by
      simp [abbClass, List.take_succ_cons]
    have h5 : abbClass rev = 4 ∨ abbClass rev = 3 ∨ abbClass rev = 1 ∨
        abbClass rev = 0 ∨ abbClass rev = 2 := by
      unfold abbClass
      split_ifs <;> simp
    rw [h1]
    rcases h5 with h | h | h | h | h <;> rw [h] <;> decide
  · by_cases h2 : rev.take 2 = ['b', 'a']
    · have n3 : ¬rev.take 3 = ['b', 'b', 'a'] := by
        intro h3
        have ht : rev.take 2 = ['b', 'b'] := by
          have := congrArg (List.take 2) h3
          simpa [List.take_take] using this
        rw [h2] at ht
        exact absurd ht (by decide)
      have hcl : abbClass rev = 3 := by simp [abbClass, n3, h2]
      have hcl2 : abbClass ('b' :: rev) = 4 := by
        simp [abbClass, List.take_succ_cons, h2]
      rw [hcl, hcl2]
      decide
    · by_cases h1 : rev.take 1 = ['a']
      · have n3 : ¬rev.take 3 = ['b', 'b', 'a'] := by
          intro h3
          have ht : rev.take 1 = ['b'] := by
            have := congrArg (List.take 1) h3
            simpa [List.take_take] using this
          rw [h1] at ht
          exact absurd ht (by decide)
        have hcl : abbClass rev = 1 := by simp [abbClass, n3, h2, h1]
        have hcl2 : abbClass ('b' :: rev) = 3 := by
          simp [abbClass, List.take_succ_cons, h2, h1]
        rw [hcl, hcl2]
        decide
      · by_cases h0 : rev = []
        · subst h0
          decide
        · by_cases h3 : rev.take 3 = ['b', 'b', 'a']
          · have t2 : rev.take 2 = ['b', 'b'] := by
              have := congrArg (List.take 2) h3
              simpa [List.take_take] using this
            have t1 : rev.take 1 = ['b'] := by
              have := congrArg (List.take 1) h3
              simpa [List.take_take] using this
            have hcl : abbClass rev = 4 := by simp [abbClass, h3]
            have hcl2 : abbClass ('b' :: rev) = 2 := by
              simp [abbClass, List.take_succ_cons, t2, t1]
            rw [hcl, hcl2]
            decide
          · have hcl : abbClass rev = 2 := by simp [abbClass, h3, h2, h1, h0]
            have hcl2 : abbClass ('b' :: rev) = 2 := by
              simp [abbClass, List.take_succ_cons, h2, h1]
            rw [hcl, hcl2]
            decide

/-- Running `abbDFA` from its start state lands in the suffix class. -/
theorem abbDFA_run (s : List Char) (hs : ∀ c ∈ s, c = 'a' ∨ c = 'b') :
    dfaRun abbDFA 0 s = some (abbClass s.reverse) := by
  induction s using List.reverseRecOn with
  | nil => rfl
  | append_singleton xs x ih =>
    have hxs : ∀ c ∈ xs, c = 'a' ∨ c = 'b' := fun c hc => hs c (by simp [hc])
    have hx : x = 'a' ∨ x = 'b' := hs x (by simp)
    rw [dfaRun_append, ih hxs]
    have hstep := abbDFA_step xs.reverse x hx
    simp only [List.reverse_append, List.reverse_cons, List.reverse_nil, List.nil_append,
      List.singleton_append]
    show dfaRun abbDFA (abbClass xs.reverse) [x] = _
    unfold dfaRun
    rw [hstep]
    rfl

/-- The class-4 condition says exactly that the string ends in `abb`. -/
theorem reverse_take3_abb (s : List Char) :
    s.reverse.take 3 = ['b', 'b', 'a'] ↔ ∃ p, s = p ++ ['a', 'b', 'b'] := by
  constructor
  · intro h
    have hp : ['b', 'b', 'a'] <+: s.reverse := by
      rw [List.prefix_iff_eq_take]
      exact h.symm
    have hsfx : ['a', 'b', 'b'] <:+ s := by
      have : (['a', 'b', 'b'] : List Char).reverse <+: s.reverse := hp
      exact List.reverse_prefix.mp this
    obtain ⟨t, ht⟩ := hsfx
    exact ⟨t, ht.symm⟩
  · rintro ⟨p, rfl⟩
    have hsfx : ['a', 'b', 'b'] <:+ p ++ ['a', 'b', 'b'] := ⟨p, rfl⟩
    have hp : (['a', 'b', 'b'] : List Char).reverse <+: (p ++ ['a', 'b', 'b']).reverse :=
      List.reverse_prefix.mpr hsfx
    have := List.prefix_iff_eq_take.mp hp
    exact this.symm

/-- Acceptance of `abbDFA` over the `a`/`b` alphabet is exactly the
ends-with-`abb` property. -/
theorem abbDFA_accepts_iff (s : List Char) (hs : ∀ c ∈ s, c = 'a' ∨ c = 'b') :
    dfaAccepts abbDFA s = true ↔ ∃ p, s = p ++ ['a', 'b', 'b'] := by
  unfold dfaAccepts
  have h0 : abbDFA.start = 0 := rfl
  rw [h0, abbDFA_run s hs]
  rw [← reverse_take3_abb]
  by_cases h3 : s.reverse.take 3 = ['b', 'b', 'a']
  · have : abbClass s.reverse = 4 := by simp [abbClass, h3]
    simp [this, h3, abbDFA]
  · have h5 : abbClass s.reverse = 3 ∨ abbClass s.reverse = 1 ∨
        abbClass s.reverse = 0 ∨ abbClass s.reverse = 2 := by
      unfold abbClass
      rw [if_neg h3]
      split_ifs <;> simp
    rcases h5 with h | h | h | h <;> simp [h, h3, abbDFA]

/-- C2: the DFA compiled from `(a|b)*abb` accepts exactly the strings over
`a`/`b` that end in the literal suffix `abb` (preceded by zero or more
`a`/`b` characters); in particular it accepts `abb`, `aabb`, `babb`,
`aaaabb` and rejects the empty string, `ab` and `abbb`. -/
theorem c2_abb_dfa_language (nfa : NFA) (cnt : Nat)
    (h : postfixToNFA (regexToPostfix ("(a|b)*abb".toList)) 0 = some (nfa, cnt)) :
    (∀ s : List Char, (∀ c ∈ s, c = 'a' ∨ c = 'b') →
      (dfaAccepts (nfaToDfa nfa) s = true ↔ ∃ p, s = p ++ "abb".toList)) ∧
    dfaAccepts (nfaToDfa nfa) ("abb".toList) = true ∧
    dfaAccepts (nfaToDfa nfa) ("aabb".toList) = true ∧
    dfaAccepts (nfaToDfa nfa) ("babb".toList) = true ∧
    dfaAccepts (nfaToDfa nfa) ("aaaabb".toList) = true ∧
    dfaAccepts (nfaToDfa nfa) ([] : List Char) = false ∧
    dfaAccepts (nfaToDfa nfa) ("ab".toList) = false ∧
    dfaAccepts (nfaToDfa nfa) ("abbb".toList) = false := by
  have hn : nfa = abbNFA := by
    have h2 := abbNFA_eq
    rw [h] at h2
    exact congrArg Prod.fst (Option.some.inj h2)
  subst hn
  rw [abbDFA_eq]
  refine ⟨fun s hs => ?_, by decide, by decide, by decide, by decide, by decide,
    by decide, by decide⟩
  have : "abb".toList = ['a', 'b', 'b'] := rfl
  rw [this]
  exact abbDFA_accepts_iff s hs

/-- C2 witness: the language characterization and all seven concrete
examples, at the concretely compiled NFA. -/
theorem c2_abb_dfa_language_witness :
    (∀ s : List Char, (∀ c ∈ s, c = 'a' ∨ c = 'b') →
      (dfaAccepts (nfaToDfa abbNFA) s = true ↔ ∃ p, s = p ++ "abb".toList)) ∧
    dfaAccepts (nfaToDfa abbNFA) ("abb".toList) = true ∧
    dfaAccepts (nfaToDfa abbNFA) ("aabb".toList) = true ∧
    dfaAccepts (nfaToDfa abbNFA) ("babb".toList) = true ∧
    dfaAccepts (nfaToDfa abbNFA) ("aaaabb".toList) = true ∧
    dfaAccepts (nfaToDfa abbNFA) ([] : List Char) = false ∧
    dfaAccepts (nfaToDfa abbNFA) ("ab".toList) = false ∧
    dfaAccepts (nfaToDfa abbNFA) ("abbb".toList) = false :=
  c2_abb_dfa_language abbNFA 14 abbNFA_eq

theorem fragWF_mono {cnt cnt2 : Nat} {f : NFA} (h : cnt ≤ cnt2) (hw : fragWF cnt f) :
    fragWF cnt2 f :=
  ⟨hw.1, hw.2.1, fun x hx => lt_of_lt_of_le (hw.2.2.1 x hx) h, hw.2.2.2⟩

theorem stackWF_symbol {cnt : Nat} {stack : List NFA} (hw : stackWF cnt stack) (c : Char) :
    stackWF (cnt + 2)
      ({ start := cnt, accept := cnt + 1, states := [cnt, cnt + 1],
         transitions := [⟨cnt, cnt + 1, some c⟩] } :: stack) := by
  obtain ⟨hall, hpw⟩ := hw
  refine ⟨?_, ?_⟩
  · intro f hf
    rcases List.mem_cons.mp hf with rfl | hf
    · refine ⟨by simp, by simp, ?_, ?_⟩
      · intro x hx
        rcases List.mem_cons.mp hx with rfl | hx
        · omega
        · simp only [List.mem_singleton] at hx
          omega
      · intro t ht
        simp only [List.mem_singleton] at ht
        subst ht
        refine ⟨by simp, by simp, by simp, by simp⟩
    · exact fragWF_mono (by omega) (hall f hf)
  · refine List.Pairwise.cons ?_ hpw
    intro g hg x hx hxg
    have hlt := (hall g hg).2.2.1 x hxg
    rcases List.mem_cons.mp hx with rfl | hx
    · omega
    · simp only [List.mem_singleton] at hx
      omega

theorem stackWF_star {cnt : Nat} {n : NFA} {rest : List NFA}
    (hw : stackWF cnt (n :: rest)) :
    stackWF (cnt + 2)
      ({ start := cnt, accept := cnt + 1, states := cnt :: (cnt + 1) :: n.states,
         transitions :=
           ⟨cnt, n.start, none⟩ :: ⟨cnt, cnt + 1, (none : Option Char)⟩ ::
           ⟨n.accept, n.start, none⟩ :: ⟨n.accept, cnt + 1, none⟩ ::
           n.transitions } :: rest) := by
  obtain ⟨hall, hpw⟩ := hw
  have hn := hall n (by simp)
  obtain ⟨hns, hna, hnlt, hnt⟩ := hn
  have hslt := hnlt _ hns
  have halt := hnlt _ hna
  refine ⟨?_, ?_⟩
  · intro f hf
    rcases List.mem_cons.mp hf with rfl | hf
    · refine ⟨by simp, by simp, ?_, ?_⟩
      · intro x hx
        rcases List.mem_cons.mp hx with rfl | hx
        · omega
        rcases List.mem_cons.mp hx with rfl | hx
        · omega
        · exact lt_of_lt_of_le (hnlt x hx) (by omega)
      · intro t ht
        rcases List.mem_cons.mp ht with rfl | ht
        · exact ⟨by simp, by simp [hns], by simp <;> omega, by simp <;> omega⟩
        rcases List.mem_cons.mp ht with rfl | ht
        · exact ⟨by simp, by simp, by simp, by simp⟩
        rcases List.mem_cons.mp ht with rfl | ht
        · exact ⟨by simp [hna], by simp [hns], by simp <;> omega, by simp <;> omega⟩
        rcases List.mem_cons.mp ht with rfl | ht
        · exact ⟨by simp [hna], by simp, by simp <;> omega, by simp <;> omega⟩
        · obtain ⟨hf1, hf2, _, _⟩ := hnt t ht
          have hlf := hnlt _ hf1
          have hlt2 := hnlt _ hf2
          exact ⟨by simp [hf1], by simp [hf2], by simp <;> omega, by simp <;> omega⟩
    · exact fragWF_mono (by omega) (hall f (by simp [hf]))
  · rcases hpw with - | ⟨hrel, hrest⟩
    refine List.Pairwise.cons ?_ hrest
    intro g hg x hx hxg
    have hglt := (hall g (by simp [hg])).2.2.1 x hxg
    rcases List.mem_cons.mp hx with rfl | hx
    · omega
    rcases List.mem_cons.mp hx with rfl | hx
    · omega
    · exact hrel g hg x hx hxg

theorem stackWF_concat {cnt : Nat} {n2 n1 : NFA} {rest : List NFA}
    (hw : stackWF cnt (n2 :: n1 :: rest)) :
    stackWF cnt
      ({ start := n1.start, accept := n2.accept, states := n1.states ++ n2.states,
         transitions :=
           n1.transitions ++ n2.transitions ++ [⟨n1.accept, n2.start, none⟩] } :: rest) := by
  obtain ⟨hall, hpw⟩ := hw
  have h2 := hall n2 (by simp)
  have h1 := hall n1 (by simp)
  obtain ⟨h2s, h2a, h2lt, h2t⟩ := h2
  obtain ⟨h1s, h1a, h1lt, h1t⟩ := h1
  rcases hpw with - | ⟨hrel2, hpw1⟩
  rcases hpw1 with - | ⟨hrel1, hrest⟩
  have hdisj : ∀ x ∈ n2.states, x ∉ n1.states := hrel2 n1 (by simp)
  refine ⟨?_, ?_⟩
  · intro f hf
    rcases List.mem_cons.mp hf with rfl | hf
    · refine ⟨by simp [h1s], by simp [h2a], ?_, ?_⟩
      · intro x hx
        rcases List.mem_append.mp hx with hx | hx
        · exact h1lt x hx
        · exact h2lt x hx
      · intro t ht
        rcases List.mem_append.mp ht with ht | ht
        · rcases List.mem_append.mp ht with ht | ht
          · obtain ⟨hf1, hf2, hfa, hfs⟩ := h1t t ht
            have hne : t.from_ ≠ n2.accept := fun hc => hdisj _ h2a (hc ▸ hf1)
            exact ⟨List.mem_append.mpr (Or.inl hf1), List.mem_append.mpr (Or.inl hf2),
              hne, hfs⟩
          · obtain ⟨hf1, hf2, hfa, hfs⟩ := h2t t ht
            have hne : t.to_ ≠ n1.start := fun hc => hdisj _ hf2 (hc.symm ▸ h1s)
            exact ⟨List.mem_append.mpr (Or.inr hf1), List.mem_append.mpr (Or.inr hf2),
              hfa, hne⟩
        · simp only [List.mem_singleton] at ht
          subst ht
          have c3 : n1.accept ≠ n2.accept := fun hc => hdisj _ h2a (hc ▸ h1a)
          have c4 : n2.start ≠ n1.start := fun hc => hdisj _ h2s (hc.symm ▸ h1s)
          exact ⟨List.mem_append.mpr (Or.inl h1a), List.mem_append.mpr (Or.inr h2s), c3, c4⟩
    · exact hall f (by simp [hf])
  · refine List.Pairwise.cons ?_ hrest
    intro g hg x hx hxg
    rcases List.mem_append.mp hx with hx | hx
    · exact hrel1 g hg x hx hxg
    · exact hrel2 g (by simp [hg]) x hx hxg

theorem stackWF_union {cnt : Nat} {n2 n1 : NFA} {rest : List NFA}
    (hw : stackWF cnt (n2 :: n1 :: rest)) :
    stackWF (cnt + 2)
      ({ start := cnt, accept := cnt + 1, states := cnt :: (cnt + 1) :: (n1.states ++ n2.states),
         transitions :=
           ⟨cnt, n1.start, none⟩ :: ⟨cnt, n2.start, none⟩ ::
           ⟨n1.accept, cnt + 1, none⟩ :: ⟨n2.accept, cnt + 1, none⟩ ::
           (n1.transitions ++ n2.transitions) } :: rest) := by
  obtain ⟨hall, hpw⟩ := hw
  have h2 := hall n2 (by simp)
  have h1 := hall n1 (by simp)
  obtain ⟨h2s, h2a, h2lt, h2t⟩ := h2
  obtain ⟨h1s, h1a, h1lt, h1t⟩ := h1
  rcases hpw with - | ⟨hrel2, hpw1⟩
  rcases hpw1 with - | ⟨hrel1, hrest⟩
  have hs1 := h1lt _ h1s
  have hs2 := h2lt _ h2s
  have ha1 := h1lt _ h1a
  have ha2 := h2lt _ h2a
  refine ⟨?_, ?_⟩
  · intro f hf
    rcases List.mem_cons.mp hf with rfl | hf
    · refine ⟨by simp, by simp, ?_, ?_⟩
      · intro x hx
        rcases List.mem_cons.mp hx with rfl | hx
        · omega
        rcases List.mem_cons.mp hx with rfl | hx
        · omega
        rcases List.mem_append.mp hx with hx | hx
        · exact lt_of_lt_of_le (h1lt x hx) (by omega)
        · exact lt_of_lt_of_le (h2lt x hx) (by omega)
      · intro t ht
        rcases List.mem_cons.mp ht with rfl | ht
        · exact ⟨by simp, by simp [h1s], by simp <;> omega, by simp <;> omega⟩
        rcases List.mem_cons.mp ht with rfl | ht
        · exact ⟨by simp, by simp [h2s], by simp <;> omega, by simp <;> omega⟩
        rcases List.mem_cons.mp ht with rfl | ht
        · exact ⟨by simp [h1a], by simp, by simp <;> omega, by simp <;> omega⟩
        rcases List.mem_cons.mp ht with rfl | ht
        · exact ⟨by simp [h2a], by simp, by simp <;> omega, by simp <;> omega⟩
        rcases List.mem_append.mp ht with ht | ht
        · obtain ⟨hf1, hf2, _, _⟩ := h1t t ht
          have hl1 := h1lt _ hf1
          have hl2 := h1lt _ hf2
          exact ⟨by simp [hf1], by simp [hf2], by simp <;> omega, by simp <;> omega⟩
        · obtain ⟨hf1, hf2, _, _⟩ := h2t t ht
          have hl1 := h2lt _ hf1
          have hl2 := h2lt _ hf2
          exact ⟨by simp [hf1], by simp [hf2], by simp <;> omega, by simp <;> omega⟩
    · exact fragWF_mono (by omega) (hall f (by simp [hf]))
  · refine List.Pairwise.cons ?_ hrest
    intro g hg x hx hxg
    have hglt := (hall g (by simp [hg])).2.2.1 x hxg
    rcases List.mem_cons.mp hx with rfl | hx
    · omega
    rcases List.mem_cons.mp hx with rfl | hx
    · omega
    rcases List.mem_append.mp hx with hx | hx
    · exact hrel1 g hg x hx hxg
    · exact hrel2 g (by simp [hg]) x hx hxg

/-- One Thompson step preserves the stack invariant. -/
theorem pftStep_wf {cnt : Nat} {stack : List NFA} {c : Char} {cnt2 : Nat} {stack2 : List NFA}
    (hw : stackWF cnt stack) (h : pftStep (cnt, stack) c = some (cnt2, stack2)) :
    stackWF cnt2 stack2 ∧ cnt ≤ cnt2 := by
  unfold pftStep at h
  split_ifs at h with h1 h2 h3
  · match stack, hw with
    | [], _ => exact absurd h (by simp)
    | n :: rest, hw =>
      simp only [Option.some.injEq, Prod.mk.injEq] at h
      obtain ⟨hc, hs⟩ := h
      subst hc
      subst hs
      exact ⟨stackWF_star hw, by omega⟩
  · match stack, hw with
    | [], _ => exact absurd h (by simp)
    | [n], _ => exact absurd h (by simp)
    | n2 :: n1 :: rest, hw =>
      simp only [Option.some.injEq, Prod.mk.injEq] at h
      obtain ⟨hc, hs⟩ := h
      subst hc
      subst hs
      exact ⟨stackWF_concat hw, le_refl _⟩
  · match stack, hw with
    | [], _ => exact absurd h (by simp)
    | [n], _ => exact absurd h (by simp)
    | n2 :: n1 :: rest, hw =>
      simp only [Option.some.injEq, Prod.mk.injEq] at h
      obtain ⟨hc, hs⟩ := h
      subst hc
      subst hs
      exact ⟨stackWF_union hw, by omega⟩
  · simp only [Option.some.injEq, Prod.mk.injEq] at h
    obtain ⟨hc, hs⟩ := h
    subst hc
    subst hs
    exact ⟨stackWF_symbol hw c, by omega⟩

/-- The whole Thompson loop preserves the stack invariant. -/
theorem runPostfix_wf (pf : List Char) (cnt : Nat) (stack : List NFA)
    (hw : stackWF cnt stack) (cnt2 : Nat) (stack2 : List NFA)
    (h : runPostfix cnt stack pf = some (cnt2, stack2)) :
    stackWF cnt2 stack2 := by
  induction pf generalizing cnt stack with
  | nil =>
    simp only [runPostfix, Option.some.injEq, Prod.mk.injEq] at h
    obtain ⟨hc, hs⟩ := h
    subst hc
    subst hs
    exact hw
  | cons c cs ih =>
    simp only [runPostfix] at h
    cases hstep : pftStep (cnt, stack) c with
    | none => rw [hstep] at h; exact absurd h (by simp)
    | some acc =>
      rw [hstep] at h
      obtain ⟨hw2, -⟩ := pftStep_wf hw (by rw [hstep])
      exact ih acc.1 acc.2 hw2 h

theorem mem_dedupFirst {x : Nat} : ∀ {l seen : List Nat},
    x ∈ dedupFirst l seen ↔ x ∈ l ∧ x ∉ seen := by
  intro l
  induction l with
  | nil => intro seen; simp [dedupFirst]
  | cons y ys ih =>
    intro seen
    unfold dedupFirst
    by_cases hy : y ∈ seen
    · rw [if_pos hy, ih]
      constructor
      · rintro ⟨hx, hxs⟩
        exact ⟨by simp [hx], hxs⟩
      · rintro ⟨hx, hxs⟩
        rcases List.mem_cons.mp hx with rfl | hx
        · exact absurd hy hxs
        · exact ⟨hx, hxs⟩
    · rw [if_neg hy]
      constructor
      · intro hx
        rcases List.mem_cons.mp hx with rfl | hx
        · exact ⟨by simp, hy⟩
        · obtain ⟨ha, hb⟩ := ih.mp hx
          refine ⟨by simp [ha], ?_⟩
          intro hc
          exact hb (by simp [hc])
      · rintro ⟨hx, hxs⟩
        rcases List.mem_cons.mp hx with rfl | hx
        · simp
        · by_cases hxy : x = y
          · subst hxy
            simp
          · refine List.mem_cons.mpr (Or.inr (ih.mpr ⟨hx, ?_⟩))
            intro hc
            rcases List.mem_cons.mp hc with h | h
            · exact hxy h
            · exact hxs h

theorem dedupFirst_nodup : ∀ (l seen : List Nat), (dedupFirst l seen).Nodup := by
  intro l
  induction l with
  | nil => intro seen; simp [dedupFirst]
  | cons y ys ih =>
    intro seen
    unfold dedupFirst
    by_cases hy : y ∈ seen
    · rw [if_pos hy]; exact ih seen
    · rw [if_neg hy]
      refine List.nodup_cons.mpr ⟨?_, ih (y :: seen)⟩
      intro hc
      exact absurd (by simp : y ∈ y :: seen) (mem_dedupFirst.mp hc).2

/-- From a successful `postfixToNFA` run, the surviving fragment and its
relation to the returned NFA. -/
theorem postfixToNFA_frag (pf : List Char) (cnt cnt2 : Nat) (nfa : NFA)
    (h : postfixToNFA pf cnt = some (nfa, cnt2)) :
    ∃ n, runPostfix cnt [] pf = some (cnt2, [n]) ∧
      nfa = { n with states := dedupFirst n.states } := by
  unfold postfixToNFA at h
  cases hr : runPostfix cnt [] pf with
  | none => rw [hr] at h; exact absurd h (by simp)
  | some r =>
    rw [hr] at h
    obtain ⟨c2, stack⟩ := r
    match stack with
    | [] => exact absurd h (by simp)
    | [n] =>
      simp only [Option.some.injEq, Prod.mk.injEq] at h
      exact ⟨n, by rw [h.2], h.1.symm⟩
    | n :: m :: rest => exact absurd h (by simp)

/-- C8: every NFA `postfixToNFA` returns has a duplicate-free states list,
and its start id, accept id and every transition endpoint are members of
that list. -/
theorem c8_nfa_invariants (pf : List Char) (cnt cnt2 : Nat) (nfa : NFA)
    (h : postfixToNFA pf cnt = some (nfa, cnt2)) :
    nfa.states.Nodup ∧ nfa.start ∈ nfa.states ∧ nfa.accept ∈ nfa.states ∧
    ∀ t ∈ nfa.transitions, t.from_ ∈ nfa.states ∧ t.to_ ∈ nfa.states := by
  obtain ⟨n, hrun, hn⟩ := postfixToNFA_frag pf cnt cnt2 nfa h
  have hw := runPostfix_wf pf cnt [] ⟨by simp, by simp⟩ cnt2 [n] hrun
  obtain ⟨hns, hna, -, hnt⟩ := hw.1 n (by simp)
  subst hn
  refine ⟨dedupFirst_nodup _ _, ?_, ?_, ?_⟩
  · exact mem_dedupFirst.mpr ⟨hns, by simp⟩
  · exact mem_dedupFirst.mpr ⟨hna, by simp⟩
  · intro t ht
    obtain ⟨hf1, hf2, -, -⟩ := hnt t ht
    exact ⟨mem_dedupFirst.mpr ⟨hf1, by simp⟩, mem_dedupFirst.mpr ⟨hf2, by simp⟩⟩

/-- C8 witness: the single-literal build. -/
theorem c8_nfa_invariants_witness :
    (postfixToNFA ['a'] 0).elim False (fun r =>
      r.1.states.Nodup ∧ r.1.start ∈ r.1.states ∧ r.1.accept ∈ r.1.states ∧
      ∀ t ∈ r.1.transitions, t.from_ ∈ r.1.states ∧ t.to_ ∈ r.1.states) := by
  have h := c8_nfa_invariants ['a'] 0 2
    ({ start := 0, accept := 1, states := [0, 1],
       transitions := [⟨0, 1, some 'a'⟩] }) (by decide)
  exact h

/-- C10: in every NFA `postfixToNFA` returns, no transition leaves the
accept state and no transition enters the start state. -/
theorem c10_start_accept_isolation (pf : List Char) (cnt cnt2 : Nat) (nfa : NFA)
    (h : postfixToNFA pf cnt = some (nfa, cnt2)) :
    ∀ t ∈ nfa.transitions, t.from_ ≠ nfa.accept ∧ t.to_ ≠ nfa.start := by
  obtain ⟨n, hrun, hn⟩ := postfixToNFA_frag pf cnt cnt2 nfa h
  have hw := runPostfix_wf pf cnt [] ⟨by simp, by simp⟩ cnt2 [n] hrun
  obtain ⟨-, -, -, hnt⟩ := hw.1 n (by simp)
  subst hn
  intro t ht
  obtain ⟨-, -, ha, hs⟩ := hnt t ht
  exact ⟨ha, hs⟩

/-- C10 witness: the Kleene-star build `a*`, whose start gains no incoming
edge (the back-edge targets the inner fragment's start instead). -/
theorem c10_start_accept_isolation_witness :
    postfixToNFA ['a', '*'] 0 =
      some ({ start := 2, accept := 3, states := [2, 3, 0, 1],
              transitions := [⟨2, 0, none⟩, ⟨2, 3, none⟩, ⟨1, 0, none⟩,
                ⟨1, 3, none⟩, ⟨0, 1, some 'a'⟩] }, 4) ∧
    (∀ t ∈ ([⟨2, 0, none⟩, ⟨2, 3, none⟩, ⟨1, 0, none⟩, ⟨1, 3, none⟩,
        ⟨0, 1, some 'a'⟩] : List Transition),
      t.from_ ≠ 3 ∧ t.to_ ≠ 2) := by
  refine ⟨by decide, ?_⟩
  have h := c10_start_accept_isolation ['a', '*'] 0 4
    ({ start := 2, accept := 3, states := [2, 3, 0, 1],
       transitions := [⟨2, 0, none⟩, ⟨2, 3, none⟩, ⟨1, 0, none⟩, ⟨1, 3, none⟩,
         ⟨0, 1, some 'a'⟩] }) (by decide)
  exact h

theorem filter_eq_singleton_length {a : Nat} : ∀ {l : List Nat}, l.Nodup → a ∈ l →
    (l.filter (fun s => s = a)).length = 1 := by
  intro l
  induction l with
  | nil => intro _ ha; exact absurd ha (by simp)
  | cons x xs ih =>
    intro hnd ha
    obtain ⟨hx, hxs⟩ := List.nodup_cons.mp hnd
    by_cases hxa : x = a
    · subst hxa
      have hnil : xs.filter (fun s => s = x) = [] := by
        rw [List.filter_eq_nil_iff]
        intro b hb
        simp only [decide_eq_true_eq]
        intro hba
        exact hx (hba ▸ hb)
      simp [List.filter_cons, hnil]
    · have ha2 : a ∈ xs := by
        rcases List.mem_cons.mp ha with rfl | h
        · exact absurd rfl hxa
        · exact h
      simp only [List.filter_cons, decide_eq_true_eq]
      rw [if_neg hxa]
      exact ih hxs ha2

theorem le_dotOccs_of_mem {x : Nat} {ls : List DotLine} {l : DotLine}
    (hl : l ∈ ls) (h1 : 1 ≤ lineOccs x l) : 1 ≤ dotOccs x ls := by
  unfold dotOccs
  exact le_trans h1 (List.single_le_sum (fun _ _ => Nat.zero_le _) _
    (List.mem_map_of_mem (lineOccs x) hl))

/-- C7 counterexample: for the single-literal build `a`, state id 0 is
referenced by a transition but appears twice in the exported text (once in
the start arrow, once as an edge endpoint), so "exactly once per state" is
false. -/
theorem c7_exactly_once_counterexample :
    postfixToNFA ['a'] 0 =
      some ({ start := 0, accept := 1, states := [0, 1],
              transitions := [⟨0, 1, some 'a'⟩] }, 2) ∧
    (⟨0, 1, some 'a'⟩ : Transition) ∈
      ({ start := 0, accept := 1, states := [0, 1],
         transitions := [⟨0, 1, some 'a'⟩] } : NFA).transitions ∧
    dotOccs 0 (nfaToDot { start := 0, accept := 1, states := [0, 1],
                          transitions := [⟨0, 1, some 'a'⟩] }) = 2 := by
  decide

/-- C7 (amended): in the exported DOT text, every state id referenced by a
transition appears at least once (its own edge line mentions it; the start
arrow can mention it again, so "exactly once" fails), and — for an automaton
whose states list is duplicate-free and contains its accepting ids, as the
pipeline guarantees — every accepting state carries the doublecircle marker
exactly once.  Stated for both `nfaToDot` and `dfaToDot`. -/
theorem c7_dot_export (N : NFA) (D : DFA)
    (hN : N.states.Nodup) (haN : N.accept ∈ N.states)
    (hD : D.states.Nodup) (haD : ∀ a ∈ D.acceptStates, a ∈ D.states) :
    (∀ t ∈ N.transitions,
      1 ≤ dotOccs t.from_ (nfaToDot N) ∧ 1 ≤ dotOccs t.to_ (nfaToDot N)) ∧
    dotMarkerCount N.accept (nfaToDot N) = 1 ∧
    (∀ t ∈ D.transitions,
      1 ≤ dotOccs t.from_ (dfaToDot D) ∧ 1 ≤ dotOccs t.to_ (dfaToDot D)) ∧
    (∀ a ∈ D.acceptStates, dotMarkerCount a (dfaToDot D) = 1) := by
  refine ⟨?_, ?_, ?_, ?_⟩
  · intro t ht
    have hmem : DotLine.edge t.from_ t.to_ t.symbol ∈ nfaToDot N := by
      unfold nfaToDot
      refine List.mem_append.mpr (Or.inl (List.mem_append.mpr (Or.inr ?_)))
      exact List.mem_map_of_mem _ ht
    constructor
    · exact le_dotOccs_of_mem hmem (by simp [lineOccs])
    · exact le_dotOccs_of_mem hmem (by simp [lineOccs])
  · unfold dotMarkerCount nfaToDot
    simp only [List.filter_append, List.length_append]
    have h1 : ([DotLine.header true, DotLine.rankdir, DotLine.nodeShape, DotLine.startPoint,
        DotLine.startArrow N.start].filter
          (fun l => l = DotLine.doubleCircle N.accept)).length = 0 := by
      simp [List.filter_cons]
    have h2 : ((N.transitions.map (fun t => DotLine.edge t.from_ t.to_ t.symbol)).filter
        (fun l => l = DotLine.doubleCircle N.accept)).length = 0 := by
      rw [List.length_eq_zero, List.filter_eq_nil_iff]
      intro l hl
      obtain ⟨t, -, rfl⟩ := List.mem_map.mp hl
      simp
    have h4 : (([DotLine.closeBrace] : List DotLine).filter
        (fun l => l = DotLine.doubleCircle N.accept)).length = 0 := by
      simp [List.filter_cons]
    have h3 : (((N.states.filter (fun s => s = N.accept)).map DotLine.doubleCircle).filter
        (fun l => l = DotLine.doubleCircle N.accept)).length = 1 := by
      have heq : ((N.states.filter (fun s => s = N.accept)).map DotLine.doubleCircle).filter
          (fun l => l = DotLine.doubleCircle N.accept) =
          ((N.states.filter (fun s => s = N.accept)).filter
            (fun s => s = N.accept)).map DotLine.doubleCircle := by
        rw [List.filter_map]
        congr 1
        apply List.filter_congr
        intro s hs
        simp [Function.comp]
      rw [heq, List.length_map, List.filter_filter]
      have : (fun s => decide (s = N.accept) && decide (s = N.accept)) =
          (fun s => decide (s = N.accept)) := by
        funext s
        cases h : decide (s = N.accept) <;> simp
      rw [show (fun a => decide (a = N.accept) && decide (a = N.accept)) =
          (fun a => decide (a = N.accept)) from this]
      exact filter_eq_singleton_length hN haN
    rw [h1, h2, h3, h4]
  · intro t ht
    have hmem : DotLine.edge t.from_ t.to_ (some t.symbol) ∈ dfaToDot D := by
      unfold dfaToDot
      refine List.mem_append.mpr (Or.inl (List.mem_append.mpr (Or.inr ?_)))
      exact List.mem_map_of_mem _ ht
    constructor
    · exact le_dotOccs_of_mem hmem (by simp [lineOccs])
    · exact le_dotOccs_of_mem hmem (by simp [lineOccs])
  · intro a ha
    unfold dotMarkerCount dfaToDot
    simp only [List.filter_append, List.length_append]
    have h1 : ([DotLine.header false, DotLine.rankdir, DotLine.nodeShape, DotLine.startPoint,
        DotLine.startArrow D.start].filter
          (fun l => l = DotLine.doubleCircle a)).length = 0 := by
      simp [List.filter_cons]
    have h2 : ((D.transitions.map (fun t => DotLine.edge t.from_ t.to_ (some t.symbol))).filter
        (fun l => l = DotLine.doubleCircle a)).length = 0 := by
      rw [List.length_eq_zero, List.filter_eq_nil_iff]
      intro l hl
      obtain ⟨t, -, rfl⟩ := List.mem_map.mp hl
      simp
    have h4 : (([DotLine.closeBrace] : List DotLine).filter
        (fun l => l = DotLine.doubleCircle a)).length = 0 := by
      simp [List.filter_cons]
    have h3 : (((D.states.filter (fun s => s ∈ D.acceptStates)).map DotLine.doubleCircle).filter
        (fun l => l = DotLine.doubleCircle a)).length = 1 := by
      have heq : ((D.states.filter (fun s => s ∈ D.acceptStates)).map DotLine.doubleCircle).filter
          (fun l => l = DotLine.doubleCircle a) =
          ((D.states.filter (fun s => s ∈ D.acceptStates)).filter
            (fun s => s = a)).map DotLine.doubleCircle := by
        rw [List.filter_map]
        congr 1
        apply List.filter_congr
        intro s hs
        simp [Function.comp]
      rw [heq, List.length_map]
      refine filter_eq_singleton_length (List.Nodup.filter _ hD) ?_
      rw [List.mem_filter]
      exact ⟨haD a ha, by simp [ha]⟩
    rw [h1, h2, h3, h4]

/-- C7 witness: the amended export properties at the single-literal NFA and
the `(a|b)*abb` DFA. -/
theorem c7_dot_export_witness :
    ((∀ t ∈ ({ start := 0, accept := 1, states := [0, 1],
               transitions := [⟨0, 1, some 'a'⟩] } : NFA).transitions,
      1 ≤ dotOccs t.from_ (nfaToDot { start := 0, accept := 1, states := [0, 1],
                                      transitions := [⟨0, 1, some 'a'⟩] }) ∧
      1 ≤ dotOccs t.to_ (nfaToDot { start := 0, accept := 1, states := [0, 1],
                                    transitions := [⟨0, 1, some 'a'⟩] })) ∧
    dotMarkerCount 1 (nfaToDot { start := 0, accept := 1, states := [0, 1],
                                 transitions := [⟨0, 1, some 'a'⟩] }) = 1 ∧
    (∀ t ∈ abbDFA.transitions,
      1 ≤ dotOccs t.from_ (dfaToDot abbDFA) ∧ 1 ≤ dotOccs t.to_ (dfaToDot abbDFA)) ∧
    (∀ a ∈ abbDFA.acceptStates, dotMarkerCount a (dfaToDot abbDFA) = 1)) :=
  c7_dot_export
    { start := 0, accept := 1, states := [0, 1], transitions := [⟨0, 1, some 'a'⟩] }
    abbDFA (by decide) (by decide) (by decide) (by decide)

theorem keyOf_perm (l : List Nat) : (keyOf l).Perm l := List.perm_insertionSort _ l

theorem mem_keyOf {x : Nat} {l : List Nat} : x ∈ keyOf l ↔ x ∈ l :=
  (keyOf_perm l).mem_iff

theorem keyOf_nodup {l : List Nat} (h : l.Nodup) : (keyOf l).Nodup :=
  (keyOf_perm l).nodup_iff.mpr h

theorem keyOf_sorted (l : List Nat) : List.Sorted (· ≤ ·) (keyOf l) :=
  List.sorted_insertionSort _ l

theorem keyOf_eq_of_set_eq {a b : List Nat} (ha : a.Nodup) (hb : b.Nodup)
    (h : ∀ x, x ∈ a ↔ x ∈ b) : keyOf a = keyOf b := by
  have hperm : a.Perm b := (List.perm_ext_iff_of_nodup ha hb).mpr h
  have hk : (keyOf a).Perm (keyOf b) :=
    (keyOf_perm a).trans (hperm.trans (keyOf_perm b).symm)
  exact List.eq_of_perm_of_sorted hk (keyOf_sorted a) (keyOf_sorted b)

theorem set_eq_of_keyOf_eq {a b : List Nat} (h : keyOf a = keyOf b) (x : Nat) :
    x ∈ a ↔ x ∈ b := by
  rw [← mem_keyOf, h, mem_keyOf]

theorem mem_alphabet_aux (c : Char) : ∀ (ts : List Transition) (acc : List Char),
    c ∈ ts.foldl (fun acc t =>
      match t.symbol with
      | some d => if d ∈ acc then acc else acc ++ [d]
      | none => acc) acc ↔ c ∈ acc ∨ ∃ t ∈ ts, t.symbol = some c := by
  intro ts
  induction ts with
  | nil => intro acc; simp
  | cons t ts ih =>
    intro acc
    simp only [List.foldl_cons]
    cases hsym : t.symbol with
    | none =>
      rw [ih]
      simp [hsym]
    | some d =>
      by_cases hd : d ∈ acc
      · simp only [hsym, if_pos hd]
        rw [ih]
        constructor
        · rintro (h | h)
          · exact Or.inl h
          · obtain ⟨u, hu, hp⟩ := h
            exact Or.inr ⟨u, List.mem_cons.mpr (Or.inr hu), hp⟩
        · rintro (h | ⟨u, hu, husym⟩)
          · exact Or.inl h
          · rcases List.mem_cons.mp hu with rfl | hu2
            · rw [hsym] at husym
              have : d = c := Option.some.inj husym
              exact Or.inl (this ▸ hd)
            · exact Or.inr ⟨u, hu2, husym⟩
      · simp only [hsym, if_neg hd]
        rw [ih]
        constructor
        · rintro (h | h)
          · rcases List.mem_append.mp h with h2 | h2
            · exact Or.inl h2
            · simp only [List.mem_singleton] at h2
              exact Or.inr ⟨t, by simp, by rw [hsym, h2]⟩
          · obtain ⟨u, hu, husym⟩ := h
            exact Or.inr ⟨u, by simp [hu], husym⟩
        · rintro (h | ⟨u, hu, husym⟩)
          · exact Or.inl (List.mem_append.mpr (Or.inl h))
          · rcases List.mem_cons.mp hu with rfl | hu2
            · rw [hsym] at husym
              have : d = c := Option.some.inj husym
              exact Or.inl (List.mem_append.mpr (Or.inr (by simp [this])))
            · exact Or.inr ⟨u, hu2, husym⟩

theorem mem_alphabet {N : NFA} {c : Char} :
    c ∈ alphabet N ↔ ∃ t ∈ N.transitions, t.symbol = some c := by
  unfold alphabet
  rw [mem_alphabet_aux]
  simp

theorem alphabet_nodup_aux : ∀ (ts : List Transition) (acc : List Char), acc.Nodup →
    (ts.foldl (fun acc t =>
      match t.symbol with
      | some d => if d ∈ acc then acc else acc ++ [d]
      | none => acc) acc).Nodup := by
  intro ts
  induction ts with
  | nil => intro acc h; exact h
  | cons t ts ih =>
    intro acc h
    simp only [List.foldl_cons]
    cases hsym : t.symbol with
    | none => exact ih acc h
    | some d =>
      by_cases hd : d ∈ acc
      · simp only [if_pos hd]
        exact ih acc h
      · simp only [if_neg hd]
        refine ih _ ?_
        rw [List.nodup_append]
        exact ⟨h, List.nodup_singleton d, by simp [List.disjoint_singleton, hd]⟩

theorem alphabet_nodup (N : NFA) : (alphabet N).Nodup :=
  alphabet_nodup_aux N.transitions [] (by simp)

theorem mem_move_inner (s : Nat) (c : Char) : ∀ (ts : List Transition) (res : List Nat) (x : Nat),
    x ∈ ts.foldl (fun res t =>
      if t.from_ = s ∧ t.symbol = some c ∧ t.to_ ∉ res then res ++ [t.to_] else res) res ↔
    x ∈ res ∨ ∃ t ∈ ts, t.from_ = s ∧ t.symbol = some c ∧ t.to_ = x := by
  intro ts
  induction ts with
  | nil => intro res x; simp
  | cons t ts ih =>
    intro res x
    simp only [List.foldl_cons]
    by_cases hcond : t.from_ = s ∧ t.symbol = some c ∧ t.to_ ∉ res
    · rw [if_pos hcond, ih]
      constructor
      · rintro (h | h)
        · rcases List.mem_append.mp h with h2 | h2
          · exact Or.inl h2
          · simp only [List.mem_singleton] at h2
            exact Or.inr ⟨t, by simp, hcond.1, hcond.2.1, h2.symm⟩
        · obtain ⟨u, hu, hp⟩ := h
          exact Or.inr ⟨u, by simp [hu], hp⟩
      · rintro (h | ⟨u, hu, hp1, hp2, hp3⟩)
        · exact Or.inl (List.mem_append.mpr (Or.inl h))
        · rcases List.mem_cons.mp hu with rfl | hu2
          · exact Or.inl (List.mem_append.mpr (Or.inr (by simp [hp3])))
          · exact Or.inr ⟨u, hu2, hp1, hp2, hp3⟩
    · rw [if_neg hcond, ih]
      constructor
      · rintro (h | h)
        · exact Or.inl h
        · obtain ⟨u, hu, hp⟩ := h
          exact Or.inr ⟨u, by simp [hu], hp⟩
      · rintro (h | ⟨u, hu, hp1, hp2, hp3⟩)
        · exact Or.inl h
        · rcases List.mem_cons.mp hu with rfl | hu2
          · push_neg at hcond
            have hto : u.to_ ∈ res := hcond hp1 hp2
            exact Or.inl (hp3 ▸ hto)
          · exact Or.inr ⟨u, hu2, hp1, hp2, hp3⟩

theorem mem_move_outer (N : NFA) (c : Char) : ∀ (S : List Nat) (acc : List Nat) (x : Nat),
    x ∈ S.foldl (fun res s =>
      N.transitions.foldl (fun res t =>
        if t.from_ = s ∧ t.symbol = some c ∧ t.to_ ∉ res then res ++ [t.to_] else res) res) acc ↔
    x ∈ acc ∨ ∃ s ∈ S, ∃ t ∈ N.transitions, t.from_ = s ∧ t.symbol = some c ∧ t.to_ = x := by
  intro S
  induction S with
  | nil => intro acc x; simp
  | cons s S ih =>
    intro acc x
    simp only [List.foldl_cons]
    rw [ih, mem_move_inner]
    constructor
    · rintro ((h | h) | h)
      · exact Or.inl h
      · obtain ⟨t, ht, hp⟩ := h
        exact Or.inr ⟨s, by simp, t, ht, hp⟩
      · obtain ⟨s2, hs2, t, ht, hp⟩ := h
        exact Or.inr ⟨s2, by simp [hs2], t, ht, hp⟩
    · rintro (h | ⟨s2, hs2, t, ht, hp1, hp2, hp3⟩)
      · exact Or.inl (Or.inl h)
      · rcases List.mem_cons.mp hs2 with rfl | hs3
        · exact Or.inl (Or.inr ⟨t, ht, hp1, hp2, hp3⟩)
        · exact Or.inr ⟨s2, hs3, t, ht, hp1, hp2, hp3⟩

theorem mem_move {N : NFA} {S : List Nat} {c : Char} {x : Nat} :
    x ∈ move N S c ↔ ∃ t ∈ N.transitions, t.from_ ∈ S ∧ t.symbol = some c ∧ t.to_ = x := by
  unfold move
  rw [mem_move_outer]
  constructor
  · rintro (h | ⟨s, hs, t, ht, hp1, hp2, hp3⟩)
    · exact absurd h (by simp)
    · exact ⟨t, ht, hp1 ▸ hs, hp2, hp3⟩
  · rintro ⟨t, ht, hp1, hp2, hp3⟩
    exact Or.inr ⟨t.from_, hp1, t, ht, rfl, hp2, hp3⟩

theorem move_inner_nodup (s : Nat) (c : Char) : ∀ (ts : List Transition) (res : List Nat),
    res.Nodup →
    (ts.foldl (fun res t =>
      if t.from_ = s ∧ t.symbol = some c ∧ t.to_ ∉ res then res ++ [t.to_] else res) res).Nodup := by
  intro ts
  induction ts with
  | nil => intro res h; exact h
  | cons t ts ih =>
    intro res h
    simp only [List.foldl_cons]
    by_cases hcond : t.from_ = s ∧ t.symbol = some c ∧ t.to_ ∉ res
    · rw [if_pos hcond]
      refine ih _ ?_
      rw [List.nodup_append]
      exact ⟨h, List.nodup_singleton _, by simp [List.disjoint_singleton, hcond.2.2]⟩
    · rw [if_neg hcond]
      exact ih res h

theorem move_nodup (N : NFA) (S : List Nat) (c : Char) : (move N S c).Nodup := by
  unfold move
  suffices h : ∀ (S2 : List Nat) (acc : List Nat), acc.Nodup →
      (S2.foldl (fun res s =>
        N.transitions.foldl (fun res t =>
          if t.from_ = s ∧ t.symbol = some c ∧ t.to_ ∉ res then res ++ [t.to_] else res) res)
        acc).Nodup by
    exact h S [] (by simp)
  intro S2
  induction S2 with
  | nil => intro acc h; exact h
  | cons s S2 ih =>
    intro acc h
    simp only [List.foldl_cons]
    exact ih _ (move_inner_nodup s c N.transitions acc h)

theorem dedupFirst_length_le : ∀ (l seen : List Nat), (dedupFirst l seen).length ≤ l.length := by
  intro l
  induction l with
  | nil => intro seen; simp [dedupFirst]
  | cons x xs ih =>
    intro seen
    unfold dedupFirst
    by_cases hx : x ∈ seen
    · rw [if_pos hx]
      exact le_trans (ih seen) (by simp)
    · rw [if_neg hx]
      simpa using ih (x :: seen)

theorem filter_notmem_append_length {α : Type} [DecidableEq α] (U res : List α) (e : α)
    (hnd : U.Nodup) (he : e ∈ U) (hres : e ∉ res) :
    (U.filter (fun x => ¬ x ∈ res ++ [e])).length + 1 =
      (U.filter (fun x => ¬ x ∈ res)).length := by
  have h1 : U.filter (fun x => ¬ x ∈ res ++ [e]) =
      (U.filter (fun x => ¬ x ∈ res)).filter (fun x => ¬ x = e) := by
    rw [List.filter_filter]
    apply List.filter_congr
    intro x hx
    by_cases hxe : x = e
    · subst hxe
      simp [hres]
    · by_cases hxr : x ∈ res <;> simp [List.mem_append, hxe, hxr]
  have hnl : (U.filter (fun x => ¬ x ∈ res)).Nodup := List.Nodup.filter _ hnd
  have hel : e ∈ U.filter (fun x => ¬ x ∈ res) := List.mem_filter.mpr ⟨he, by simp [hres]⟩
  have h2 : (U.filter (fun x => ¬ x ∈ res)).filter (fun x => ¬ x = e) =
      (U.filter (fun x => ¬ x ∈ res)).erase e := by
    rw [List.Nodup.erase_eq_filter hnl]
    apply List.filter_congr
    intro x hx
    by_cases h : x = e <;> simp [h]
  rw [h1, h2, List.length_erase_of_mem hel]
  have hpos : 0 < (U.filter (fun x => ¬ x ∈ res)).length := List.length_pos_of_mem hel
  omega

theorem closureScan_res_extends (s : Nat) : ∀ (ts : List Transition) (acc : List Nat × List Nat),
    acc.2 <+: (ts.foldl (fun acc t =>
      if t.from_ = s ∧ t.symbol = none ∧ t.to_ ∉ acc.2 then (t.to_ :: acc.1, acc.2 ++ [t.to_])
      else acc) acc).2 := by
  intro ts
  induction ts with
  | nil => intro acc; exact List.prefix_refl _
  | cons t ts ih =>
    intro acc
    simp only [List.foldl_cons]
    by_cases hcond : t.from_ = s ∧ t.symbol = none ∧ t.to_ ∉ acc.2
    · rw [if_pos hcond]
      exact List.IsPrefix.trans (List.prefix_append acc.2 [t.to_])
        (ih (t.to_ :: acc.1, acc.2 ++ [t.to_]))
    · rw [if_neg hcond]
      exact ih acc

theorem closureScan_stack_suffix (s : Nat) : ∀ (ts : List Transition) (acc : List Nat × List Nat),
    acc.1 <:+ (ts.foldl (fun acc t =>
      if t.from_ = s ∧ t.symbol = none ∧ t.to_ ∉ acc.2 then (t.to_ :: acc.1, acc.2 ++ [t.to_])
      else acc) acc).1 := by
  intro ts
  induction ts with
  | nil => intro acc; exact List.suffix_refl _
  | cons t ts ih =>
    intro acc
    simp only [List.foldl_cons]
    by_cases hcond : t.from_ = s ∧ t.symbol = none ∧ t.to_ ∉ acc.2
    · rw [if_pos hcond]
      exact List.IsSuffix.trans (List.suffix_cons t.to_ acc.1)
        (ih (t.to_ :: acc.1, acc.2 ++ [t.to_]))
    · rw [if_neg hcond]
      exact ih acc

theorem closureScan_stack_mem (s : Nat) : ∀ (ts : List Transition) (acc : List Nat × List Nat)
    (x : Nat), x ∈ (ts.foldl (fun acc t =>
      if t.from_ = s ∧ t.symbol = none ∧ t.to_ ∉ acc.2 then (t.to_ :: acc.1, acc.2 ++ [t.to_])
      else acc) acc).1 → x ∈ acc.1 ∨ x ∈ (ts.foldl (fun acc t =>
      if t.from_ = s ∧ t.symbol = none ∧ t.to_ ∉ acc.2 then (t.to_ :: acc.1, acc.2 ++ [t.to_])
      else acc) acc).2 := by
  intro ts
  induction ts with
  | nil => intro acc x hx; exact Or.inl hx
  | cons t ts ih =>
    intro acc x hx
    simp only [List.foldl_cons] at hx ⊢
    by_cases hcond : t.from_ = s ∧ t.symbol = none ∧ t.to_ ∉ acc.2
    · rw [if_pos hcond] at hx ⊢
      rcases ih _ x hx with h | h
      · rcases List.mem_cons.mp h with rfl | h2
        · refine Or.inr ?_
          have hpre := closureScan_res_extends s ts (t.to_ :: acc.1, acc.2 ++ [t.to_])
          exact hpre.subset (by simp)
        · exact Or.inl h2
      · exact Or.inr h
    · rw [if_neg hcond] at hx ⊢
      exact ih acc x hx

theorem closureScan_res_mem (s : Nat) : ∀ (ts : List Transition) (acc : List Nat × List Nat)
    (x : Nat), x ∈ (ts.foldl (fun acc t =>
      if t.from_ = s ∧ t.symbol = none ∧ t.to_ ∉ acc.2 then (t.to_ :: acc.1, acc.2 ++ [t.to_])
      else acc) acc).2 → x ∈ acc.2 ∨ ∃ t ∈ ts, t.from_ = s ∧ t.symbol = none ∧ t.to_ = x := by
  intro ts
  induction ts with
  | nil => intro acc x hx; exact Or.inl hx
  | cons t ts ih =>
    intro acc x hx
    simp only [List.foldl_cons] at hx
    by_cases hcond : t.from_ = s ∧ t.symbol = none ∧ t.to_ ∉ acc.2
    · rw [if_pos hcond] at hx
      rcases ih _ x hx with h | h
      · rcases List.mem_append.mp h with h2 | h2
        · exact Or.inl h2
        · simp only [List.mem_singleton] at h2
          exact Or.inr ⟨t, by simp, hcond.1, hcond.2.1, h2.symm⟩
      · obtain ⟨u, hu, hp⟩ := h
        exact Or.inr ⟨u, by simp [hu], hp⟩
    · rw [if_neg hcond] at hx
      rcases ih acc x hx with h | h
      · exact Or.inl h
      · obtain ⟨u, hu, hp⟩ := h
        exact Or.inr ⟨u, by simp [hu], hp⟩

theorem closureScan_res_new_in_stack (s : Nat) :
    ∀ (ts : List Transition) (acc : List Nat × List Nat) (x : Nat),
    x ∈ (ts.foldl (fun acc t =>
      if t.from_ = s ∧ t.symbol = none ∧ t.to_ ∉ acc.2 then (t.to_ :: acc.1, acc.2 ++ [t.to_])
      else acc) acc).2 → x ∈ acc.2 ∨ x ∈ (ts.foldl (fun acc t =>
      if t.from_ = s ∧ t.symbol = none ∧ t.to_ ∉ acc.2 then (t.to_ :: acc.1, acc.2 ++ [t.to_])
      else acc) acc).1 := by
  intro ts
  induction ts with
  | nil => intro acc x hx; exact Or.inl hx
  | cons t ts ih =>
    intro acc x hx
    simp only [List.foldl_cons] at hx ⊢
    by_cases hcond : t.from_ = s ∧ t.symbol = none ∧ t.to_ ∉ acc.2
    · rw [if_pos hcond] at hx ⊢
      rcases ih _ x hx with h | h
      · rcases List.mem_append.mp h with h2 | h2
        · exact Or.inl h2
        · simp only [List.mem_singleton] at h2
          subst h2
          refine Or.inr ?_
          have hsfx := closureScan_stack_suffix s ts (t.to_ :: acc.1, acc.2 ++ [t.to_])
          exact hsfx.subset (by simp)
      · exact Or.inr h
    · rw [if_neg hcond] at hx ⊢
      exact ih acc x hx

theorem closureScan_complete (s : Nat) : ∀ (ts : List Transition) (acc : List Nat × List Nat),
    ∀ t ∈ ts, t.from_ = s → t.symbol = none → t.to_ ∈ (ts.foldl (fun acc t =>
      if t.from_ = s ∧ t.symbol = none ∧ t.to_ ∉ acc.2 then (t.to_ :: acc.1, acc.2 ++ [t.to_])
      else acc) acc).2 := by
  intro ts
  induction ts with
  | nil => intro acc t ht; exact absurd ht (by simp)
  | cons u ts ih =>
    intro acc t ht hfrom hsym
    simp only [List.foldl_cons]
    rcases List.mem_cons.mp ht with rfl | ht2
    · by_cases hcond : t.from_ = s ∧ t.symbol = none ∧ t.to_ ∉ acc.2
      · rw [if_pos hcond]
        have hpre := closureScan_res_extends s ts (t.to_ :: acc.1, acc.2 ++ [t.to_])
        exact hpre.subset (by simp)
      · rw [if_neg hcond]
        push_neg at hcond
        have hto : t.to_ ∈ acc.2 := hcond hfrom hsym
        have hpre := closureScan_res_extends s ts acc
        exact hpre.subset hto
    · by_cases hcond : u.from_ = s ∧ u.symbol = none ∧ u.to_ ∉ acc.2
      · rw [if_pos hcond]
        exact ih _ t ht2 hfrom hsym
      · rw [if_neg hcond]
        exact ih acc t ht2 hfrom hsym

theorem closureScan_res_nodup (s : Nat) : ∀ (ts : List Transition) (acc : List Nat × List Nat),
    acc.2.Nodup → (ts.foldl (fun acc t =>
      if t.from_ = s ∧ t.symbol = none ∧ t.to_ ∉ acc.2 then (t.to_ :: acc.1, acc.2 ++ [t.to_])
      else acc) acc).2.Nodup := by
  intro ts
  induction ts with
  | nil => intro acc h; exact h
  | cons t ts ih =>
    intro acc h
    simp only [List.foldl_cons]
    by_cases hcond : t.from_ = s ∧ t.symbol = none ∧ t.to_ ∉ acc.2
    · rw [if_pos hcond]
      refine ih _ ?_
      rw [List.nodup_append]
      exact ⟨h, List.nodup_singleton _, by simp [List.disjoint_singleton, hcond.2.2]⟩
    · rw [if_neg hcond]
      exact ih acc h

theorem closureScan_measure (N : NFA) (s : Nat) : ∀ (ts : List Transition)
    (acc : List Nat × List Nat), (∀ t ∈ ts, t ∈ N.transitions) →
    2 * closureMissing N (ts.foldl (fun acc t =>
      if t.from_ = s ∧ t.symbol = none ∧ t.to_ ∉ acc.2 then (t.to_ :: acc.1, acc.2 ++ [t.to_])
      else acc) acc).2 + (ts.foldl (fun acc t =>
      if t.from_ = s ∧ t.symbol = none ∧ t.to_ ∉ acc.2 then (t.to_ :: acc.1, acc.2 ++ [t.to_])
      else acc) acc).1.length ≤ 2 * closureMissing N acc.2 + acc.1.length := by
  intro ts
  induction ts with
  | nil => intro acc _; exact le_refl _
  | cons t ts ih =>
    intro acc hts
    simp only [List.foldl_cons]
    by_cases hcond : t.from_ = s ∧ t.symbol = none ∧ t.to_ ∉ acc.2
    · rw [if_pos hcond]
      refine le_trans (ih _ (fun u hu => hts u (by simp [hu]))) ?_
      have hkey : closureMissing N (acc.2 ++ [t.to_]) + 1 = closureMissing N acc.2 := by
        unfold closureMissing
        refine filter_notmem_append_length _ _ _ (dedupFirst_nodup _ _) ?_ hcond.2.2
        refine mem_dedupFirst.mpr ⟨?_, by simp⟩
        exact List.mem_map_of_mem Transition.to_ (hts t (by simp))
      simp only [List.length_cons]
      omega
    · rw [if_neg hcond]
      exact ih acc (fun u hu => hts u (by simp [hu]))

theorem closureLoop_spec (N : NFA) : ∀ (fuel : Nat) (stack res : List Nat),
    (∀ x ∈ stack, x ∈ res) →
    (∀ r ∈ res, (∀ b, epsEdge N r b → b ∈ res) ∨ r ∈ stack) →
    2 * closureMissing N res + stack.length ≤ fuel →
    (∀ x ∈ res, x ∈ closureLoop N fuel stack res) ∧
    (∀ x ∈ closureLoop N fuel stack res, ∃ r ∈ res, epsReach N r x) ∧
    (∀ x ∈ closureLoop N fuel stack res, ∀ b, epsEdge N x b → b ∈ closureLoop N fuel stack res) := by
  intro fuel
  induction fuel with
  | zero =>
    intro stack res hsub hcl hfuel
    have hstack : stack = [] := by
      have : stack.length = 0 := by omega
      exact List.length_eq_zero.mp this
    subst hstack
    refine ⟨fun x hx => hx, fun x hx => ⟨x, hx, Relation.ReflTransGen.refl⟩, ?_⟩
    intro x hx b hb
    rcases hcl x hx with h | h
    · exact h b hb
    · exact absurd h (by simp)
  | succ fuel ih =>
    intro stack res hsub hcl hfuel
    match stack with
    | [] =>
      refine ⟨fun x hx => hx, fun x hx => ⟨x, hx, Relation.ReflTransGen.refl⟩, ?_⟩
      intro x hx b hb
      rcases hcl x hx with h | h
      · exact h b hb
      · exact absurd h (by simp)
    | s :: tail =>
      show (∀ x ∈ res, x ∈ closureLoop N fuel (closureScan N s (tail, res)).1
          (closureScan N s (tail, res)).2) ∧ _
      set acc := closureScan N s (tail, res) with hacc
      have hpre : res <+: acc.2 := closureScan_res_extends s N.transitions (tail, res)
      have hsub2 : ∀ x ∈ acc.1, x ∈ acc.2 := by
        intro x hx
        rcases closureScan_stack_mem s N.transitions (tail, res) x hx with h | h
        · exact hpre.subset (hsub x (by simp [h]))
        · exact h
      have hcl2 : ∀ r ∈ acc.2, (∀ b, epsEdge N r b → b ∈ acc.2) ∨ r ∈ acc.1 := by
        intro r hr
        rcases closureScan_res_new_in_stack s N.transitions (tail, res) r hr with h | h
        · rcases hcl r h with h2 | h2
          · exact Or.inl (fun b hb => hpre.subset (h2 b hb))
          · rcases List.mem_cons.mp h2 with rfl | h3
            · refine Or.inl ?_
              rintro b ⟨t, ht, hfrom, hsym, rfl⟩
              exact closureScan_complete r N.transitions (tail, res) t ht hfrom hsym
            · refine Or.inr ?_
              have hsfx := closureScan_stack_suffix s N.transitions (tail, res)
              exact hsfx.subset h3
        · exact Or.inr h
      have hfuel2 : 2 * closureMissing N acc.2 + acc.1.length ≤ fuel := by
        have hm : 2 * closureMissing N acc.2 + acc.1.length ≤
            2 * closureMissing N res + tail.length :=
          closureScan_measure N s N.transitions (tail, res) (fun t ht => ht)
        simp only [List.length_cons] at hfuel
        omega
      obtain ⟨ha, hb, hc⟩ := ih acc.1 acc.2 hsub2 hcl2 hfuel2
      refine ⟨fun x hx => ha x (hpre.subset hx), ?_, hc⟩
      intro x hx
      obtain ⟨r, hr, hreach⟩ := hb x hx
      rcases closureScan_res_mem s N.transitions (tail, res) r hr with h | h
      · exact ⟨r, h, hreach⟩
      · obtain ⟨t, ht, hfrom, hsym, hto⟩ := h
        refine ⟨s, hsub s (by simp), ?_⟩
        exact Relation.ReflTransGen.head ⟨t, ht, hfrom, hsym, hto⟩ hreach

theorem closureLoop_nodup (N : NFA) : ∀ (fuel : Nat) (stack res : List Nat),
    res.Nodup → (closureLoop N fuel stack res).Nodup := by
  intro fuel
  induction fuel with
  | zero => intro stack res h; exact h
  | succ fuel ih =>
    intro stack res h
    match stack with
    | [] => exact h
    | s :: tail =>
      show ((closureLoop N fuel (closureScan N s (tail, res)).1
        (closureScan N s (tail, res)).2)).Nodup
      exact ih _ _ (closureScan_res_nodup s N.transitions (tail, res) h)

theorem epsilonClosure_nodup (N : NFA) (S : List Nat) : (epsilonClosure N S).Nodup :=
  closureLoop_nodup N _ _ _ (dedupFirst_nodup S [])

theorem mem_epsilonClosure {N : NFA} {S : List Nat} {x : Nat} :
    x ∈ epsilonClosure N S ↔ ∃ s ∈ S, epsReach N s x := by
  unfold epsilonClosure
  have hspec := closureLoop_spec N (closureFuel N (dedupFirst S))
      (dedupFirst S).reverse (dedupFirst S)
      (fun x hx => List.mem_reverse.mp hx)
      (fun r hr => Or.inr (List.mem_reverse.mpr hr))
      (by
        unfold closureFuel closureMissing
        have h1 := List.length_filter_le
          (fun x => ¬ x ∈ dedupFirst S)
          (dedupFirst (N.transitions.map Transition.to_))
        have h2 := dedupFirst_length_le (N.transitions.map Transition.to_) []
        simp only [List.length_reverse, List.length_map] at *
        omega)
  constructor
  · intro hx
    obtain ⟨r, hr, hreach⟩ := hspec.2.1 x hx
    exact ⟨r, (mem_dedupFirst.mp hr).1, hreach⟩
  · rintro ⟨s, hs, hreach⟩
    induction hreach with
    | refl => exact hspec.1 s (mem_dedupFirst.mpr ⟨hs, by simp⟩)
    | tail hab hedge ih2 => exact hspec.2.2 _ ih2 _ hedge

theorem epsilonClosure_set_eq {N : NFA} {S S2 : List Nat}
    (h : ∀ x, x ∈ S ↔ x ∈ S2) (x : Nat) :
    x ∈ epsilonClosure N S ↔ x ∈ epsilonClosure N S2 := by
  rw [mem_epsilonClosure, mem_epsilonClosure]
  constructor
  · rintro ⟨s, hs, hr⟩
    exact ⟨s, (h s).mp hs, hr⟩
  · rintro ⟨s, hs, hr⟩
    exact ⟨s, (h s).mpr hs, hr⟩

theorem move_set_eq {N : NFA} {S S2 : List Nat} {c : Char}
    (h : ∀ x, x ∈ S ↔ x ∈ S2) (x : Nat) :
    x ∈ move N S c ↔ x ∈ move N S2 c := by
  rw [mem_move, mem_move]
  constructor
  · rintro ⟨t, ht, h1, h2, h3⟩
    exact ⟨t, ht, (h _).mp h1, h2, h3⟩
  · rintro ⟨t, ht, h1, h2, h3⟩
    exact ⟨t, ht, (h _).mpr h1, h2, h3⟩

theorem epsilonClosure_subset_uSet {N : NFA} {S : List Nat}
    (hS : ∀ x ∈ S, x ∈ uSet N) : ∀ x ∈ epsilonClosure N S, x ∈ uSet N := by
  intro x hx
  obtain ⟨s, hs, hreach⟩ := mem_epsilonClosure.mp hx
  induction hreach with
  | refl => exact hS s hs
  | tail hab hedge ih2 =>
    obtain ⟨t, ht, -, -, hto⟩ := hedge
    exact hto ▸ List.mem_cons.mpr (Or.inr (List.mem_map_of_mem Transition.to_ ht))

theorem move_subset_uSet {N : NFA} {S : List Nat} {c : Char} :
    ∀ x ∈ move N S c, x ∈ uSet N := by
  intro x hx
  obtain ⟨t, ht, -, -, hto⟩ := mem_move.mp hx
  exact hto ▸ List.mem_cons.mpr (Or.inr (List.mem_map_of_mem Transition.to_ ht))

theorem sorted_lt_sublist : ∀ (u s : List Nat), List.Sorted (· < ·) s →
    List.Sorted (· < ·) u → (∀ x ∈ s, x ∈ u) → s.Sublist u := by
  intro u
  induction u with
  | nil =>
    intro s _ _ hsub
    match s with
    | [] => exact List.Sublist.refl []
    | x :: s2 => exact absurd (hsub x (by simp)) (by simp)
  | cons b u ih =>
    intro s hs hu hsub
    match s, hs with
    | [], _ => exact List.nil_sublist _
    | a :: s2, hs =>
      have ha := hsub a (by simp)
      by_cases hab : a = b
      · subst hab
        refine List.Sublist.cons₂ a (ih s2 hs.of_cons hu.of_cons ?_)
        intro x hx
        have hax : a < x := (List.sorted_cons.mp hs).1 x hx
        have hxu : x ∈ a :: u := hsub x (by simp [hx])
        rcases List.mem_cons.mp hxu with rfl | h2
        · omega
        · exact h2
      · have hau : a ∈ u := by
          rcases List.mem_cons.mp ha with h | h
          · exact absurd h hab
          · exact h
        have hba : b < a := by
          have := (List.sorted_cons.mp hu).1 a hau
          exact this
        refine List.Sublist.cons b (ih (a :: s2) hs hu.of_cons ?_)
        intro x hx
        have hxba : b < x := by
          rcases List.mem_cons.mp hx with rfl | h2
          · exact hba
          · have := (List.sorted_cons.mp hs).1 x h2
            omega
        have hxu : x ∈ b :: u := hsub x hx
        rcases List.mem_cons.mp hxu with rfl | h2
        · omega
        · exact h2

theorem sorted_lt_of_le_nodup {l : List Nat} (hs : List.Sorted (· ≤ ·) l) (hn : l.Nodup) :
    List.Sorted (· < ·) l := by
  have := List.Pairwise.and hs hn
  exact this.imp (fun h => lt_of_le_of_ne h.1 h.2)

theorem dfaUniverse_nodup (N : NFA) : (dfaUniverse N).Nodup :=
  keyOf_nodup (dedupFirst_nodup _ [])

theorem key_mem_universe {N : NFA} {S : List Nat} (hnd : S.Nodup)
    (hsub : ∀ x ∈ S, x ∈ uSet N) : keyOf S ∈ (dfaUniverse N).sublists := by
  rw [List.mem_sublists]
  apply sorted_lt_sublist
  · exact sorted_lt_of_le_nodup (keyOf_sorted S) (keyOf_nodup hnd)
  · exact sorted_lt_of_le_nodup (keyOf_sorted _) (dfaUniverse_nodup N)
  · intro x hx
    refine mem_keyOf.mpr (mem_dedupFirst.mpr ⟨?_, by simp⟩)
    exact hsub x (mem_keyOf.mp hx)

theorem idxOf_getD_self : ∀ (l : List (List Nat)), l.Nodup → ∀ (i : Nat), i < l.length →
    idxOf (l.getD i []) l = i := by
  intro l
  induction l with
  | nil => intro _ i hi; exact absurd hi (by simp)
  | cons a rest ih =>
    intro hnd i hi
    obtain ⟨ha, hrest⟩ := List.nodup_cons.mp hnd
    match i with
    | 0 => simp [idxOf]
    | j + 1 =>
      have hj : j < rest.length := by simpa using hi
      have hmem : rest.getD j [] ∈ rest := by
        rw [List.getD_eq_getElem rest [] hj]
        exact List.getElem_mem hj
      have hne : a ≠ rest.getD j [] := fun hc => ha (hc ▸ hmem)
      show idxOf ((a :: rest).getD (j + 1) []) (a :: rest) = j + 1
      have hgd : (a :: rest).getD (j + 1) [] = rest.getD j [] := rfl
      rw [hgd]
      unfold idxOf
      rw [if_neg hne, ih hrest j hj]

theorem idxOf_keys_self {seen : List (List Nat)} (hnd : (seen.map keyOf).Nodup)
    {idx : Nat} (h : idx < seen.length) :
    idxOf (keyOf (seen.getD idx [])) (seen.map keyOf) = idx := by
  have hidx2 : idx < (seen.map keyOf).length := by simpa using h
  have hget : keyOf (seen.getD idx []) = (seen.map keyOf).getD idx [] := by
    rw [List.getD_eq_getElem seen [] h, List.getD_eq_getElem _ [] hidx2, List.getElem_map]
  rw [hget]
  exact idxOf_getD_self _ hnd idx hidx2

theorem idxOf_append_self {keys : List (List Nat)} {k : List Nat} (h : k ∉ keys) :
    idxOf k (keys ++ [k]) = keys.length := by
  induction keys with
  | nil => simp [idxOf]
  | cons a keys ih =>
    have hak : a ≠ k := by
      intro hc
      exact h (by simp [hc])
    simp only [List.cons_append, List.length_cons]
    unfold idxOf
    rw [if_neg hak, ih (fun hc => h (by simp [hc]))]

theorem idxOf_lt_length {k : List Nat} : ∀ {keys : List (List Nat)}, k ∈ keys →
    idxOf k keys < keys.length := by
  intro keys
  induction keys with
  | nil => intro h; exact absurd h (by simp)
  | cons a keys ih =>
    intro h
    by_cases hak : a = k
    · simp [idxOf, hak]
    · unfold idxOf
      rw [if_neg hak]
      have hk : k ∈ keys := by
        rcases List.mem_cons.mp h with h2 | h2
        · exact absurd h2.symm hak
        · exact h2
      simpa using ih hk

theorem getD_idxOf {k : List Nat} : ∀ {keys : List (List Nat)}, k ∈ keys →
    keys.getD (idxOf k keys) [] = k := by
  intro keys
  induction keys with
  | nil => intro h; exact absurd h (by simp)
  | cons a keys ih =>
    intro h
    by_cases hak : a = k
    · simp [idxOf, hak]
    · unfold idxOf
      rw [if_neg hak]
      have hk : k ∈ keys := by
        rcases List.mem_cons.mp h with h2 | h2
        · exact absurd h2.symm hak
        · exact h2
      simpa using ih hk

theorem getD_append_length {seen : List (List Nat)} {cl : List Nat} :
    (seen ++ [cl]).getD seen.length [] = cl := by
  rw [List.getD_append_right _ _ _ _ (le_refl _)]
  simp

theorem getD_stable {s1 s2 : List (List Nat)} (h : s1 <+: s2) {i : Nat}
    (hi : i < s1.length) : s2.getD i [] = s1.getD i [] := by
  obtain ⟨t, rfl⟩ := h
  exact List.getD_append _ _ _ _ hi

theorem length_filter_flip {α : Type} : ∀ (U : List α) (p q : α → Bool) (e : α),
    U.Nodup → e ∈ U → p e = false → q e = true →
    (∀ x ∈ U, x ≠ e → p x = q x) →
    (U.filter p).length + 1 = (U.filter q).length := by
  intro U
  induction U with
  | nil => intro p q e _ he; exact absurd he (by simp)
  | cons u U ih =>
    intro p q e hnd he hpe hqe hagree
    obtain ⟨hu, hU⟩ := List.nodup_cons.mp hnd
    rcases List.mem_cons.mp he with rfl | he2
    · have hfeq : U.filter p = U.filter q := by
        apply List.filter_congr
        intro x hx
        exact hagree x (by simp [hx]) (fun hc => hu (hc ▸ hx))
      simp only [List.filter_cons, hpe, hqe]
      rw [hfeq]
      simp
    · have hue : u ≠ e := by
        intro hc
        subst hc
        exact hu he2
      have hpq : p u = q u := hagree u (by simp) hue
      have ihr := ih p q e hU he2 hpe hqe (fun x hx hne => hagree x (by simp [hx]) hne)
      cases hval : q u with
      | true =>
        have h1 : (u :: U).filter p = u :: U.filter p := by
          simp [List.filter_cons, hpq, hval]
        have h2 : (u :: U).filter q = u :: U.filter q := by
          simp [List.filter_cons, hval]
        rw [h1, h2]
        simp only [List.length_cons]
        omega
      | false =>
        have h1 : (u :: U).filter p = U.filter p := by
          simp [List.filter_cons, hpq, hval]
        have h2 : (u :: U).filter q = U.filter q := by
          simp [List.filter_cons, hval]
        rw [h1, h2]
        exact ihr

theorem symStep_fold (N : NFA) (idx : Nat) (cur : List Nat) :
    ∀ (syms : List Char) (seen : List (List Nat)) (trans : List DTransition)
    (r : List (List Nat) × List DTransition),
    r = syms.foldl (symStep N cur idx) (seen, trans) →
    syms.Nodup → seenOK N seen →
    seenOK N r.1 ∧ seen <+: r.1 ∧
    2 * dfaMissing N r.1 + r.1.length ≤ 2 * dfaMissing N seen + seen.length ∧
    ∃ adds, r.2 = trans ++ adds ∧
      (∀ a ∈ adds, a.from_ = idx ∧ a.symbol ∈ syms ∧ move N cur a.symbol ≠ [] ∧
        a.to_ < r.1.length ∧
        keyOf (r.1.getD a.to_ []) = keyOf (epsilonClosure N (move N cur a.symbol))) ∧
      (adds.map DTransition.symbol).Nodup ∧
      (∀ c ∈ syms, move N cur c ≠ [] → ∃ a ∈ adds, a.symbol = c) := by
  intro syms
  induction syms with
  | nil =>
    intro seen trans r hr _ hOK
    subst hr
    refine ⟨hOK, List.prefix_refl _, le_refl _, [], by simp, by simp, by simp, by simp⟩
  | cons c syms ih =>
    intro seen trans r hr hnd hOK
    obtain ⟨hcs, hsnd⟩ := List.nodup_cons.mp hnd
    rw [List.foldl_cons] at hr
    by_cases hmv : move N cur c = []
    · have hacc1 : symStep N cur idx (seen, trans) c = (seen, trans) := by
        simp only [symStep]
        rw [if_pos hmv]
      rw [hacc1] at hr
      obtain ⟨hOK2, hpre, hmeas, adds, haddeq, haddp, haddnd, haddc⟩ :=
        ih seen trans r hr hsnd hOK
      refine ⟨hOK2, hpre, hmeas, adds, haddeq, ?_, haddnd, ?_⟩
      · intro a ha
        obtain ⟨h1, h2, h3, h4, h5⟩ := haddp a ha
        exact ⟨h1, by simp [h2], h3, h4, h5⟩
      · intro c2 hc2 hmv2
        rcases List.mem_cons.mp hc2 with rfl | hc3
        · exact absurd hmv hmv2
        · exact haddc c2 hc3 hmv2
    · by_cases hk : keyOf (epsilonClosure N (move N cur c)) ∈ seen.map keyOf
      · -- existing key: seen unchanged, one transition appended
        have hacc1 : symStep N cur idx (seen, trans) c =
            (seen, trans ++ [⟨idx,
              idxOf (keyOf (epsilonClosure N (move N cur c))) (seen.map keyOf), c⟩]) := by
          simp only [symStep]
          rw [if_neg hmv, if_pos hk]
        rw [hacc1] at hr
        obtain ⟨hOK2, hpre, hmeas, adds, haddeq, haddp, haddnd, haddc⟩ :=
          ih seen _ r hr hsnd hOK
        have htoid : idxOf (keyOf (epsilonClosure N (move N cur c))) (seen.map keyOf) <
            seen.length := by
          have := idxOf_lt_length hk
          simpa using this
        have hkeyid : keyOf (seen.getD
            (idxOf (keyOf (epsilonClosure N (move N cur c))) (seen.map keyOf)) []) =
            keyOf (epsilonClosure N (move N cur c)) := by
          have hgd := getD_idxOf hk
          have hlt2 : idxOf (keyOf (epsilonClosure N (move N cur c))) (seen.map keyOf) <
              (seen.map keyOf).length := idxOf_lt_length hk
          have hlt3 : idxOf (keyOf (epsilonClosure N (move N cur c))) (seen.map keyOf) <
              seen.length := by simpa using hlt2
          rw [List.getD_eq_getElem _ [] hlt2, List.getElem_map] at hgd
          rw [List.getD_eq_getElem seen [] hlt3]
          exact hgd
        refine ⟨hOK2, hpre, hmeas,
          ⟨idx, idxOf (keyOf (epsilonClosure N (move N cur c))) (seen.map keyOf), c⟩ :: adds,
          ?_, ?_, ?_, ?_⟩
        · rw [haddeq, List.append_assoc]
          simp
        · intro a ha
          rcases List.mem_cons.mp ha with rfl | ha2
          · refine ⟨rfl, by simp, hmv, lt_of_lt_of_le htoid hpre.length_le, ?_⟩
            rw [getD_stable hpre htoid]
            exact hkeyid
          · obtain ⟨h1, h2, h3, h4, h5⟩ := haddp a ha2
            exact ⟨h1, by simp [h2], h3, h4, h5⟩
        · simp only [List.map_cons, List.nodup_cons]
          refine ⟨?_, haddnd⟩
          intro hc4
          obtain ⟨a, ha, hasym⟩ := List.mem_map.mp hc4
          obtain ⟨-, h2, -, -, -⟩ := haddp a ha
          rw [hasym] at h2
          exact hcs h2
        · intro c2 hc2 hmv2
          rcases List.mem_cons.mp hc2 with rfl | hc3
          · exact ⟨_, List.mem_cons_self _ _, rfl⟩
          · obtain ⟨a, ha, hasym⟩ := haddc c2 hc3 hmv2
            exact ⟨a, by simp [ha], hasym⟩
      · -- new key: subset appended, one transition appended
        have hacc1 : symStep N cur idx (seen, trans) c =
            (seen ++ [epsilonClosure N (move N cur c)],
             trans ++ [⟨idx, seen.length, c⟩]) := by
          simp only [symStep]
          rw [if_neg hmv, if_neg hk]
          have : idxOf (keyOf (epsilonClosure N (move N cur c)))
              ((seen ++ [epsilonClosure N (move N cur c)]).map keyOf) = seen.length := by
            rw [List.map_append]
            simp only [List.map_cons, List.map_nil]
            rw [idxOf_append_self hk]
            simp
          rw [this]
        have hclnd : (epsilonClosure N (move N cur c)).Nodup := epsilonClosure_nodup N _
        have hclsub : ∀ x ∈ epsilonClosure N (move N cur c), x ∈ uSet N :=
          epsilonClosure_subset_uSet (fun x hx => move_subset_uSet x hx)
        have hOKb : seenOK N (seen ++ [epsilonClosure N (move N cur c)]) := by
          obtain ⟨hent, hknd⟩ := hOK
          refine ⟨?_, ?_⟩
          · intro S hS
            rcases List.mem_append.mp hS with h | h
            · exact hent S h
            · simp only [List.mem_singleton] at h
              subst h
              exact ⟨hclnd, hclsub⟩
          · rw [List.map_append]
            simp only [List.map_cons, List.map_nil]
            rw [List.nodup_append]
            exact ⟨hknd, List.nodup_singleton _, by simp [List.disjoint_singleton, hk]⟩
        have hmeasb : 2 * dfaMissing N (seen ++ [epsilonClosure N (move N cur c)]) +
            (seen ++ [epsilonClosure N (move N cur c)]).length + 1 ≤
            2 * dfaMissing N seen + seen.length := by
          have hkey : dfaMissing N (seen ++ [epsilonClosure N (move N cur c)]) + 1 =
              dfaMissing N seen := by
            unfold dfaMissing
            rw [List.map_append]
            simp only [List.map_cons, List.map_nil]
            refine length_filter_flip _ _ _ (keyOf (epsilonClosure N (move N cur c)))
              (List.nodup_sublists.mpr (dfaUniverse_nodup N))
              (key_mem_universe hclnd hclsub) ?_ ?_ ?_
            · simp
            · simp [hk]
            · intro x hx hne
              by_cases hxk : x ∈ seen.map keyOf <;> simp [List.mem_append, hne, hxk]
          simp only [List.length_append, List.length_cons, List.length_nil]
          omega
        rw [hacc1] at hr
        obtain ⟨hOK2, hpre, hmeas, adds, haddeq, haddp, haddnd, haddc⟩ :=
          ih _ _ r hr hsnd hOKb
        have hpre0 : seen <+: seen ++ [epsilonClosure N (move N cur c)] :=
          List.prefix_append _ _
        have hlen1 : seen.length < (seen ++ [epsilonClosure N (move N cur c)]).length := by
          simp
        have hkeyid : keyOf (r.1.getD seen.length []) =
            keyOf (epsilonClosure N (move N cur c)) := by
          rw [getD_stable hpre hlen1]
          rw [getD_append_length]
        refine ⟨hOK2, hpre0.trans hpre, by omega,
          ⟨idx, seen.length, c⟩ :: adds, ?_, ?_, ?_, ?_⟩
        · rw [haddeq, List.append_assoc]
          simp
        · intro a ha
          rcases List.mem_cons.mp ha with rfl | ha2
          · exact ⟨rfl, by simp, hmv, lt_of_lt_of_le hlen1 hpre.length_le, hkeyid⟩
          · obtain ⟨h1, h2, h3, h4, h5⟩ := haddp a ha2
            exact ⟨h1, by simp [h2], h3, h4, h5⟩
        · simp only [List.map_cons, List.nodup_cons]
          refine ⟨?_, haddnd⟩
          intro hc4
          obtain ⟨a, ha, hasym⟩ := List.mem_map.mp hc4
          obtain ⟨-, h2, -, -, -⟩ := haddp a ha
          rw [hasym] at h2
          exact hcs h2
        · intro c2 hc2 hmv2
          rcases List.mem_cons.mp hc2 with rfl | hc3
          · exact ⟨_, List.mem_cons_self _ _, rfl⟩
          · obtain ⟨a, ha, hasym⟩ := haddc c2 hc3 hmv2
            exact ⟨a, by simp [ha], hasym⟩

theorem dfaInv_step (N : NFA) {idx : Nat} {seen : List (List Nat)} {trans : List DTransition}
    (hInv : dfaInv N idx seen trans) (hidx : idx < seen.length)
    (r : List (List Nat) × List DTransition)
    (hr : r = (alphabet N).foldl (symStep N (seen.getD idx []) idx) (seen, trans)) :
    dfaInv N (idx + 1) r.1 r.2 ∧ seen <+: r.1 ∧
    2 * dfaMissing N r.1 + r.1.length ≤ 2 * dfaMissing N seen + seen.length := by
  obtain ⟨hOK, hle, htr, hpairs, hproc⟩ := hInv
  obtain ⟨hOK2, hpre, hmeas, adds, haddeq, haddp, haddnd, haddc⟩ :=
    symStep_fold N idx (seen.getD idx []) (alphabet N) seen trans r hr (alphabet_nodup N) hOK
  have hpre_len := hpre.length_le
  refine ⟨⟨hOK2, by omega, ?_, ?_, ?_⟩, hpre, hmeas⟩
  · intro dt hdt
    rw [haddeq] at hdt
    rcases List.mem_append.mp hdt with h | h
    · obtain ⟨h1, h2, h3⟩ := htr dt h
      exact ⟨by omega, by omega, h3⟩
    · obtain ⟨h1, h2, -, h4, -⟩ := haddp dt h
      exact ⟨by omega, h4, h2⟩
  · rw [haddeq, List.map_append, List.nodup_append]
    refine ⟨hpairs, ?_, ?_⟩
    · have hsnd : ((adds.map (fun dt => (dt.from_, dt.symbol))).map Prod.snd).Nodup := by
        rw [List.map_map]
        exact haddnd
      exact List.Nodup.of_map Prod.snd hsnd
    · intro p hp1 hp2
      obtain ⟨dt1, hdt1, rfl⟩ := List.mem_map.mp hp1
      obtain ⟨dt2, hdt2, hpeq⟩ := List.mem_map.mp hp2
      have h1 : dt1.from_ < idx := (htr dt1 hdt1).1
      have h2 : dt2.from_ = idx := (haddp dt2 hdt2).1
      have : dt2.from_ = dt1.from_ := congrArg Prod.fst hpeq
      omega
  · intro i hi c
    by_cases hii : i = idx
    · subst hii
      have hstable : r.1.getD i [] = seen.getD i [] := getD_stable hpre hidx
      rw [hstable]
      constructor
      · intro hmv dt hdt hcontra
        rw [haddeq] at hdt
        rcases List.mem_append.mp hdt with h | h
        · have := (htr dt h).1
          omega
        · obtain ⟨-, -, h3, -, -⟩ := haddp dt h
          rw [hcontra.2] at h3
          exact h3 hmv
      · intro hmv
        have hc : c ∈ alphabet N := by
          obtain ⟨x, hx⟩ := List.exists_mem_of_ne_nil _ hmv
          obtain ⟨t, ht, -, hsym, -⟩ := mem_move.mp hx
          exact mem_alphabet.mpr ⟨t, ht, hsym⟩
        obtain ⟨a, ha, hasym⟩ := haddc c hc hmv
        obtain ⟨h1, -, -, h4, h5⟩ := haddp a ha
        refine ⟨a, ?_, h1, hasym, ?_⟩
        · rw [haddeq]
          exact List.mem_append.mpr (Or.inr ha)
        · rw [hasym] at h5
          exact h5
    · have hilt : i < idx := by omega
      have hiseen : i < seen.length := by omega
      have hstable : r.1.getD i [] = seen.getD i [] := getD_stable hpre hiseen
      rw [hstable]
      obtain ⟨hp1, hp2⟩ := hproc i hilt c
      constructor
      · intro hmv dt hdt hcontra
        rw [haddeq] at hdt
        rcases List.mem_append.mp hdt with h | h
        · exact hp1 hmv dt h hcontra
        · have := (haddp dt h).1
          omega
      · intro hmv
        obtain ⟨dt, hdt, h1, h2, h3⟩ := hp2 hmv
        have hto : dt.to_ < seen.length := (htr dt hdt).2.1
        refine ⟨dt, ?_, h1, h2, ?_⟩
        · rw [haddeq]
          exact List.mem_append.mpr (Or.inl hdt)
        · rw [getD_stable hpre hto]
          exact h3

theorem dfaLoop_spec (N : NFA) : ∀ (fuel idx : Nat) (seen : List (List Nat))
    (trans : List DTransition) (r : List (List Nat) × List DTransition),
    r = dfaLoop N (alphabet N) fuel idx (seen, trans) →
    dfaInv N idx seen trans →
    2 * dfaMissing N seen + (seen.length - idx) ≤ fuel →
    dfaInv N r.1.length r.1 r.2 ∧ seen <+: r.1 := by
  intro fuel
  induction fuel with
  | zero =>
    intro idx seen trans r hr hInv hfuel
    have hreq : r = (seen, trans) := hr
    subst hreq
    have hlen : seen.length ≤ idx := by omega
    have hidx : idx = seen.length := le_antisymm hInv.2.1 hlen
    rw [← hidx]
    exact ⟨hInv, List.prefix_refl _⟩
  | succ fuel ih =>
    intro idx seen trans r hr hInv hfuel
    by_cases h : idx < seen.length
    · have hstep1 : dfaLoop N (alphabet N) (fuel + 1) idx (seen, trans) =
          if h2 : idx < (seen, trans).1.length then
            dfaLoop N (alphabet N) fuel (idx + 1)
              ((alphabet N).foldl
                (symStep N ((seen, trans).1[idx]) (idxOf (keyOf ((seen, trans).1[idx]))
                  ((seen, trans).1.map keyOf))) (seen, trans))
          else (seen, trans) := rfl
      have hloopeq : dfaLoop N (alphabet N) (fuel + 1) idx (seen, trans) =
          dfaLoop N (alphabet N) fuel (idx + 1)
            ((alphabet N).foldl (symStep N (seen.getD idx []) idx) (seen, trans)) := by
        rw [hstep1, dif_pos h]
        dsimp only
        rw [← List.getD_eq_getElem seen [] h, idxOf_keys_self hInv.1.2 h]
      rw [hloopeq] at hr
      obtain ⟨hInv2, hpre1, hmeas⟩ := dfaInv_step N hInv h
        ((alphabet N).foldl (symStep N (seen.getD idx []) idx) (seen, trans)) rfl
      have hlen2 := hInv2.2.1
      have hfuel2 : 2 * dfaMissing N
            ((alphabet N).foldl (symStep N (seen.getD idx []) idx) (seen, trans)).1 +
          (((alphabet N).foldl (symStep N (seen.getD idx []) idx) (seen, trans)).1.length -
            (idx + 1)) ≤ fuel := by
        omega
      obtain ⟨hfin, hpre2⟩ := ih (idx + 1) _ _ r hr hInv2 hfuel2
      exact ⟨hfin, hpre1.trans hpre2⟩
    · have hstep1 : dfaLoop N (alphabet N) (fuel + 1) idx (seen, trans) =
          if h2 : idx < (seen, trans).1.length then
            dfaLoop N (alphabet N) fuel (idx + 1)
              ((alphabet N).foldl
                (symStep N ((seen, trans).1[idx]) (idxOf (keyOf ((seen, trans).1[idx]))
                  ((seen, trans).1.map keyOf))) (seen, trans))
          else (seen, trans) := rfl
      have hreq : r = (seen, trans) := by
        rw [hr, hstep1, dif_neg h]
      subst hreq
      have hidx : idx = seen.length := le_antisymm hInv.2.1 (by omega)
      rw [← hidx]
      exact ⟨hInv, List.prefix_refl _⟩

theorem dfaInv_init (N : NFA) : dfaInv N 0 [epsilonClosure N [N.start]] [] := by
  refine ⟨⟨?_, by simp⟩, by simp, by simp, by simp, ?_⟩
  · intro S hS
    simp only [List.mem_singleton] at hS
    subst hS
    refine ⟨epsilonClosure_nodup N _, epsilonClosure_subset_uSet ?_⟩
    intro x hx
    simp only [List.mem_singleton] at hx
    subst hx
    exact List.mem_cons.mpr (Or.inl rfl)
  · intro i hi
    exact absurd hi (by omega)

theorem nfaToDfa_spec (N : NFA) :
    dfaInv N (dfaLoop N (alphabet N) (dfaFuel N) 0 ([epsilonClosure N [N.start]], [])).1.length
      (dfaLoop N (alphabet N) (dfaFuel N) 0 ([epsilonClosure N [N.start]], [])).1
      (dfaLoop N (alphabet N) (dfaFuel N) 0 ([epsilonClosure N [N.start]], [])).2 ∧
    [epsilonClosure N [N.start]] <+:
      (dfaLoop N (alphabet N) (dfaFuel N) 0 ([epsilonClosure N [N.start]], [])).1 := by
  refine dfaLoop_spec N (dfaFuel N) 0 _ _ _ rfl (dfaInv_init N) ?_
  unfold dfaFuel
  have h1 : dfaMissing N [epsilonClosure N [N.start]] ≤ (dfaUniverse N).sublists.length :=
    List.length_filter_le _ _
  rw [List.length_sublists] at h1
  simp only [List.length_singleton]
  omega

theorem move_nil (N : NFA) (c : Char) : move N [] c = [] := rfl

theorem epsilonClosure_nil (N : NFA) : epsilonClosure N [] = [] := by
  unfold epsilonClosure
  have h : ∀ fuel res, closureLoop N fuel [] res = res := by
    intro fuel res
    cases fuel <;> rfl
  simpa [dedupFirst] using h (closureFuel N (dedupFirst [])) (dedupFirst [])

theorem dfaRun_single (D : DFA) (q : Nat) (x : Char) :
    dfaRun D q [x] = dfaStep D q x := by
  cases h : dfaStep D q x <;> simp [dfaRun, h]

theorem nfaSimSet_append (N : NFA) (s : List Char) (x : Char) :
    nfaSimSet N (s ++ [x]) = epsilonClosure N (move N (nfaSimSet N s) x) := by
  unfold nfaSimSet
  rw [List.foldl_append]
  rfl

/-- The table-driven DFA run mirrors the direct NFA simulation: either both
are alive, at a DFA id whose stored subset has the same canonical key as
the simulation set, or both are dead (no transition / empty set). -/
theorem dfaRun_sim (N : NFA) : ∀ (s : List Char),
    (∃ i, i < (dfaLoop N (alphabet N) (dfaFuel N) 0
        ([epsilonClosure N [N.start]], [])).1.length ∧
      dfaRun (nfaToDfa N) 0 s = some i ∧
      keyOf ((dfaLoop N (alphabet N) (dfaFuel N) 0
        ([epsilonClosure N [N.start]], [])).1.getD i []) = keyOf (nfaSimSet N s)) ∨
    (dfaRun (nfaToDfa N) 0 s = none ∧ nfaSimSet N s = []) := by
  obtain ⟨hInv, hpre⟩ := nfaToDfa_spec N
  intro s
  induction s using List.reverseRecOn with
  | nil =>
    refine Or.inl ⟨0, ?_, rfl, ?_⟩
    · have := hpre.length_le
      simp only [List.length_singleton] at this
      omega
    · have h0 : (dfaLoop N (alphabet N) (dfaFuel N) 0
          ([epsilonClosure N [N.start]], [])).1.getD 0 [] = epsilonClosure N [N.start] := by
        rw [getD_stable hpre (by simp)]
        rfl
      rw [h0]
      rfl
  | append_singleton s x ih =>
    have hrunapp : dfaRun (nfaToDfa N) 0 (s ++ [x]) =
        (dfaRun (nfaToDfa N) 0 s).bind (fun q => dfaStep (nfaToDfa N) q x) := by
      rw [dfaRun_append]
      congr 1
      funext q
      exact dfaRun_single _ q x
    rcases ih with ⟨i, hi, hrun, hkey⟩ | ⟨hrun, hsim⟩
    · have hproc := hInv.2.2.2.2 i hi x
      have hseteq : ∀ y, y ∈ (dfaLoop N (alphabet N) (dfaFuel N) 0
          ([epsilonClosure N [N.start]], [])).1.getD i [] ↔ y ∈ nfaSimSet N s :=
        set_eq_of_keyOf_eq hkey
      have hmveq : ∀ y, y ∈ move N ((dfaLoop N (alphabet N) (dfaFuel N) 0
          ([epsilonClosure N [N.start]], [])).1.getD i []) x ↔
          y ∈ move N (nfaSimSet N s) x := move_set_eq hseteq
      by_cases hmv : move N ((dfaLoop N (alphabet N) (dfaFuel N) 0
          ([epsilonClosure N [N.start]], [])).1.getD i []) x = []
      · refine Or.inr ⟨?_, ?_⟩
        · rw [hrunapp, hrun]
          have hstep : dfaStep (nfaToDfa N) i x = none := by
            unfold dfaStep
            rw [Option.map_eq_none']
            rw [List.find?_eq_none]
            intro dt hdt hp
            have hp2 : dt.from_ = i ∧ dt.symbol = x := by
              simpa [Bool.and_eq_true, beq_iff_eq] using hp
            exact hproc.1 hmv dt hdt hp2
          simp [hstep]
        · rw [nfaSimSet_append]
          have hmv2 : move N (nfaSimSet N s) x = [] := by
            rw [List.eq_nil_iff_forall_not_mem]
            intro y hy
            rw [List.eq_nil_iff_forall_not_mem] at hmv
            exact hmv y ((hmveq y).mpr hy)
          rw [hmv2, epsilonClosure_nil]
      · obtain ⟨dt, hdt, hdf, hds, hdk⟩ := hproc.2 hmv
        have hstep : dfaStep (nfaToDfa N) i x = some dt.to_ := by
          unfold dfaStep
          cases hfind : List.find? (fun t => t.from_ == i && t.symbol == x)
              (nfaToDfa N).transitions with
          | none =>
            rw [List.find?_eq_none] at hfind
            exfalso
            refine hfind dt hdt ?_
            rw [Bool.and_eq_true]
            constructor
            · simpa using hdf
            · simpa using hds
          | some dt2 =>
            have hp := List.find?_some hfind
            have hmem := List.mem_of_find?_eq_some hfind
            have hp2 : dt2.from_ = i ∧ dt2.symbol = x := by
              simpa [Bool.and_eq_true, beq_iff_eq] using hp
            have heq : dt2 = dt := by
              refine List.inj_on_of_nodup_map hInv.2.2.2.1 hmem hdt ?_
              rw [hp2.1, hp2.2, hdf, hds]
            rw [heq]
            rfl
        refine Or.inl ⟨dt.to_, (hInv.2.2.1 dt hdt).2.1, ?_, ?_⟩
        · rw [hrunapp, hrun]
          simp [hstep]
        · rw [nfaSimSet_append, hdk]
          refine keyOf_eq_of_set_eq (epsilonClosure_nodup N _) (epsilonClosure_nodup N _) ?_
          exact epsilonClosure_set_eq hmveq
    · refine Or.inr ⟨?_, ?_⟩
      · rw [hrunapp, hrun]
        rfl
      · rw [nfaSimSet_append, hsim, move_nil, epsilonClosure_nil]

/-- Subset construction is correct: the DFA built by `nfaToDfa` accepts a
string exactly when the direct NFA simulation accepts it. -/
theorem nfaToDfa_correct (N : NFA) (s : List Char) :
    dfaAccepts (nfaToDfa N) s = nfaSimAccepts N s := by
  obtain ⟨hInv, hpre⟩ := nfaToDfa_spec N
  rcases dfaRun_sim N s with ⟨i, hi, hrun, hkey⟩ | ⟨hrun, hsim⟩
  · have hstart : (nfaToDfa N).start = 0 := rfl
    unfold dfaAccepts
    rw [hstart, hrun]
    show decide (i ∈ (nfaToDfa N).acceptStates) = nfaSimAccepts N s
    have hacc : (nfaToDfa N).acceptStates =
        (List.range (dfaLoop N (alphabet N) (dfaFuel N) 0
          ([epsilonClosure N [N.start]], [])).1.length).filter
          (fun j => N.accept ∈ keyOf ((dfaLoop N (alphabet N) (dfaFuel N) 0
            ([epsilonClosure N [N.start]], [])).1.getD j [])) := rfl
    unfold nfaSimAccepts
    rw [decide_eq_decide]
    rw [hacc, List.mem_filter, List.mem_range]
    constructor
    · rintro ⟨-, hmemkey⟩
      have : N.accept ∈ keyOf ((dfaLoop N (alphabet N) (dfaFuel N) 0
          ([epsilonClosure N [N.start]], [])).1.getD i []) := by simpa using hmemkey
      rw [hkey] at this
      exact mem_keyOf.mp this
    · intro hmem
      refine ⟨hi, ?_⟩
      have : N.accept ∈ keyOf ((dfaLoop N (alphabet N) (dfaFuel N) 0
          ([epsilonClosure N [N.start]], [])).1.getD i []) := by
        rw [hkey]
        exact mem_keyOf.mpr hmem
      simpa using this
  · unfold dfaAccepts
    have hstart : (nfaToDfa N).start = 0 := rfl
    rw [hstart, hrun]
    unfold nfaSimAccepts
    rw [hsim]
    simp

/-- C5: for every NFA, the DFA produced by `nfaToDfa` has start id 0, at
most one transition per (from, symbol) pair (the list of such pairs is
duplicate-free), and every transition is labeled with a genuine symbol of
the NFA's derived alphabet — in particular never with the epsilon marker,
which the `DTransition` type cannot even carry. -/
theorem c5_dfa_determinism (N : NFA) :
    (nfaToDfa N).start = 0 ∧
    ((nfaToDfa N).transitions.map (fun dt => (dt.from_, dt.symbol))).Nodup ∧
    (∀ dt ∈ (nfaToDfa N).transitions, dt.symbol ∈ alphabet N) := by
  obtain ⟨hInv, hpre⟩ := nfaToDfa_spec N
  have htrans : (nfaToDfa N).transitions =
      (dfaLoop N (alphabet N) (dfaFuel N) 0 ([epsilonClosure N [N.start]], [])).2 := rfl
  refine ⟨rfl, ?_, ?_⟩
  · rw [htrans]
    exact hInv.2.2.2.1
  · rw [htrans]
    intro dt hdt
    exact (hInv.2.2.1 dt hdt).2.2

/-- C5 witness: the invariants at the DFA compiled from `(a|b)*abb`. -/
theorem c5_dfa_determinism_witness :
    (nfaToDfa abbNFA).start = 0 ∧
    ((nfaToDfa abbNFA).transitions.map (fun dt => (dt.from_, dt.symbol))).Nodup ∧
    (∀ dt ∈ (nfaToDfa abbNFA).transitions, dt.symbol ∈ alphabet abbNFA) :=
  c5_dfa_determinism abbNFA

/-- C1: for every pattern that compiles to an NFA, and every string over
the derived alphabet of length at most 6, the DFA produced by
`nfaToDfa (postfixToNFA (regexToPostfix pattern))` accepts the string
exactly when the direct NFA simulation (epsilon-closure of `{start}`, then
`move` followed by epsilon-closure per character, finally testing the
accept id) accepts it.  (The proof establishes the equivalence with no use
of the alphabet and length restrictions, so it holds a fortiori under
them.) -/
theorem c1_dfa_nfa_equivalence (re : List Char) (nfa : NFA) (cnt : Nat)
    (hcompile : postfixToNFA (regexToPostfix re) 0 = some (nfa, cnt))
    (s : List Char) (hs : ∀ c ∈ s, c ∈ alphabet nfa) (hlen : s.length ≤ 6) :
    dfaAccepts (nfaToDfa nfa) s = nfaSimAccepts nfa s :=
  nfaToDfa_correct nfa s

/-- C1 witness: the compiled `(a|b)*abb` automaton and the string `ab`. -/
theorem c1_dfa_nfa_equivalence_witness :
    dfaAccepts (nfaToDfa abbNFA) ("ab".toList) = nfaSimAccepts abbNFA ("ab".toList) :=
  c1_dfa_nfa_equivalence ("(a|b)*abb".toList) abbNFA 14 abbNFA_eq ("ab".toList)
    (by decide) (by decide)

end AutomataML
